import Mathlib

/-!
# Query execution core of `app/vmselect/promql/exec.go`

A shallow embedding of `Exec`, `maySortResults`, `timeseriesToResult`,
`removeNaNs`, `parsePromQLWithCache` and the `parseCache` type, and of the method
`ByteBuffer.ReadAt` that `lib/bytesutil/bytebuffer_test.go` tests, followed by the
properties proved about them.

Conventions of the embedding.

* A Go `string` / `[]byte` is the list of its bytes (`Bytes`); query texts, which
  are only compared for equality, are Lean strings.
* A `float64` is its IEEE-754 bit pattern, so that `math.IsNaN` is a decidable
  test on the exponent and mantissa bits.
* A Go slice is a `Slice`: the elements it shows plus the spare elements of its
  backing array up to its capacity, so that `s[:n]` fails exactly when Go panics.
* `int64` values are integers, with `+` and `-` wrapped to 64 bits; the `uint64`
  counters of the cache are naturals, incremented modulo `2^64`; the one `float64`
  product of `Put` is computed with the rounding of `float64`.
* A run-time panic is the outcome `none`.
* The parser, the evaluator, the config validation and the marshaling of metric
  names are collaborators declared in other files; they are the fields of
  `Externals`.
* `parseCache` is taken under its lock: calls are sequential.  The iteration
  order of a Go map is unspecified; `Put` receives it as the list `order`.
-/

namespace Promql

/-! ## Data model -/

/-- A Go byte string: the list of its bytes. -/
abbrev Bytes := List Nat

/-- A `float64`, as its 64-bit IEEE-754 pattern. -/
abbrev Float64 := Nat

/-- The test `math.IsNaN`: all eleven exponent bits set and a non-zero mantissa. -/
def isNaN (v : Float64) : Bool :=
  (v / 2 ^ 52) % 2 ^ 11 == 2047 && v % 2 ^ 52 != 0

/-- A Go slice: `elems` are the elements `s[0:len(s)]`, `spare` the elements of
the backing array between `len(s)` and `cap(s)`. -/
structure Slice (α : Type) where
  elems : List α
  spare : List α
  deriving DecidableEq, Repr

namespace Slice

/-- The Go builtin `len(s)`. -/
def len {α : Type} (s : Slice α) : Nat := s.elems.length

/-- The Go builtin `cap(s)`. -/
def cap {α : Type} (s : Slice α) : Nat := s.elems.length + s.spare.length

/-- The slice expression `s[:hi]`: a panic (`none`) unless `0 ≤ hi ≤ cap(s)`. -/
def upTo {α : Type} (s : Slice α) (hi : Int) : Option (Slice α) :=
  if 0 ≤ hi ∧ hi ≤ (s.cap : Int) then
    some ⟨(s.elems ++ s.spare).take hi.toNat, (s.elems ++ s.spare).drop hi.toNat⟩
  else none

/-- A slice whose capacity equals its length. -/
def ofList {α : Type} (l : List α) : Slice α := ⟨l, []⟩

end Slice

/-- Modelled from the spec: the type `MetricName` is declared in another package;
it is a primary group name plus an ordered list of label name/value pairs. -/
structure MetricName where
  MetricGroup : Bytes
  Tags : List (Bytes × Bytes)
  deriving DecidableEq, Repr

/-- The type `timeseries` the evaluator returns (by pointer), with the three fields
`exec.go` uses. -/
structure timeseries where
  MetricName : MetricName
  Values : Slice Float64
  Timestamps : Slice Int
  deriving DecidableEq, Repr

/-- The type `netstorage.Result`, with the four fields `timeseriesToResult` fills.
Its slices are freshly allocated copies, so only their elements are kept. -/
structure Result where
  MetricNameMarshaled : Bytes
  MetricName : MetricName
  Values : List Float64
  Timestamps : List Int
  deriving DecidableEq, Repr

/-- Modelled from the spec: the expression types are declared in the parser's file.
`funcExpr` is the function-call node with its `Name`; `otherExpr` stands for every
other implementation of the `expr` interface, and `nilExpr` for the nil interface. -/
inductive Expr where
  | nilExpr
  | funcExpr (Name : String)
  | otherExpr (id : Nat)
  deriving DecidableEq, Repr

/-- A Go `error` value: one made by a collaborator (parser or evaluator), or the
one `timeseriesToResult` builds with
`fmt.Errorf("duplicate output timeseries: %s%s", MetricGroup, stringMetricName(..))`. -/
inductive GoError where
  | external (msg : String)
  | duplicateOutput (mn : MetricName)
  deriving DecidableEq, Repr

/-- Modelled from the spec: the type `EvalConfig` is declared in the evaluator's
file; `Start`, `End` and `Step` are `int64` millisecond values. -/
structure EvalConfig where
  Start : Int
  End : Int
  Step : Int
  deriving DecidableEq, Repr

/-- The range of `int64`. -/
def isInt64 (x : Int) : Prop := -(2 ^ 63) ≤ x ∧ x < 2 ^ 63

instance (x : Int) : Decidable (isInt64 x) := by
  unfold isInt64; infer_instance

/-- Reduction of an integer to the `int64` that Go's arithmetic yields. -/
def wrapInt64 (x : Int) : Int := (x + 2 ^ 63) % 2 ^ 64 - 2 ^ 63

/-- The collaborators of `exec.go` that live in other files of the package. -/
structure Externals where
  /-- The parser `parsePromQL(q)`, returning Go's pair `(expr, error)`. -/
  parsePromQL : String → Expr × Option GoError
  /-- The evaluator `evalExpr(ec, e)`, returning Go's pair `([]*timeseries, error)`;
  it reads `ec` and does not write to it. -/
  evalExpr : EvalConfig → Expr → List timeseries × Option GoError
  /-- The check `ec.validate()`: `false` when it panics. -/
  validate : EvalConfig → Bool
  /-- The call `marshalMetricNameSorted(dst[:0], mn)`: the canonical bytes of `mn`. -/
  marshalMetricNameSorted : MetricName → Bytes
  /-- The method `e.AppendString(nil)`: the text of an expression. -/
  AppendString : Expr → Bytes

/-! ## Byte strings and `sort.Slice` -/

/-- Go's `<` on strings: lexicographic comparison of the bytes. -/
def bytesLess : Bytes → Bytes → Bool
  | [], [] => false
  | [], _ :: _ => true
  | _ :: _, [] => false
  | a :: as, b :: bs => a < b || (a == b && bytesLess as bs)

/-- Insertion of `x` into a list ordered by `less`, after the elements that are not
greater than it. -/
def orderedInsert {α : Type} (less : α → α → Bool) (x : α) : List α → List α
  | [] => [x]
  | y :: ys => if less x y then x :: y :: ys else y :: orderedInsert less x ys

/-- The library routine `sort.Slice(xs, less)`.  The Go routine is an unstable
in-place sort; `timeseriesToResult` only calls it on results whose keys are pairwise
distinct, where every sorting routine gives the same list
(`sortSlice_unique` below), so an insertion sort stands for it. -/
def sortSlice {α : Type} (less : α → α → Bool) : List α → List α
  | [] => []
  | x :: xs => orderedInsert less x (sortSlice less xs)

/-! ## The result post-processor -/

/-- The inner loop of `removeNaNs`: the number of NaN values in `vs`, added to `nans`. -/
def countNaNs (nans : Nat) : List Float64 → Nat
  | [] => nans
  | v :: vs => countNaNs (if isNaN v then nans + 1 else nans) vs

/-- The outer loop of `removeNaNs`, with `rvs` the series kept so far. -/
def removeNaNsLoop (rvs : List timeseries) : List timeseries → List timeseries
  | [] => rvs
  | ts :: tss =>
    let nans := countNaNs 0 ts.Values.elems
    if nans == ts.Values.len then
      -- Skip timeseries with all NaNs.
      removeNaNsLoop rvs tss
    else
      removeNaNsLoop (rvs ++ [ts]) tss

/-- The function `removeNaNs`. -/
def removeNaNs (tss : List timeseries) : List timeseries :=
  removeNaNsLoop [] tss

/-- The result filled in one pass of the loop of `timeseriesToResult`: the marshaled
name `bb`, and copies of the name, the values and the timestamps of `ts`. -/
def copyResult (bb : Bytes) (ts : timeseries) : Result :=
  { MetricNameMarshaled := bb
    MetricName := ts.MetricName
    Values := ts.Values.elems
    Timestamps := ts.Timestamps.elems }

/-- The loop of `timeseriesToResult`: `m` is the set of marshaled names seen so far
and `result` the results filled so far.  It returns Go's pair `(result, err)`; a
nil slice is `none`. -/
def timeseriesToResultLoop (ext : Externals) (m : List Bytes) (result : List Result) :
    List timeseries → Option (List Result) × Option GoError
  | [] => (some result, none)
  | ts :: tss =>
    let bb := ext.marshalMetricNameSorted ts.MetricName
    if m.contains bb then
      (none, some (GoError.duplicateOutput ts.MetricName))
    else
      let rs := copyResult bb ts
      timeseriesToResultLoop ext (bb :: m) (result ++ [rs]) tss

/-- The comparison handed to `sort.Slice` in `timeseriesToResult`. -/
def resultLess (a b : Result) : Bool :=
  bytesLess a.MetricNameMarshaled b.MetricNameMarshaled

/-- The function `timeseriesToResult`. -/
def timeseriesToResult (ext : Externals) (tss : List timeseries) (maySort : Bool) :
    Option (List Result) × Option GoError :=
  let tss := removeNaNs tss
  match timeseriesToResultLoop ext [] [] tss with
  | (some result, none) =>
    if maySort then (some (sortSlice resultLess result), none)
    else (some result, none)
  | r => r

/-- The function `maySortResults`. -/
def maySortResults (e : Expr) (tss : List timeseries) : Bool :=
  if tss.length > 100 then
    -- There is no sense in sorting a lot of results
    false
  else
    match e with
    | Expr.funcExpr Name =>
      if Name = "sort" ∨ Name = "sort_desc" then false else true
    | _ => true

/-! ## The parse cache -/

/-- The type `parseCacheValue`. -/
structure parseCacheValue where
  e : Expr
  err : Option GoError
  deriving DecidableEq, Repr

/-- A Go `map[string]*parseCacheValue`: one entry per key.  A stored pointer may be
nil (`none`). -/
structure GoMap where
  entries : List (String × Option parseCacheValue)
  nodup : (entries.map Prod.fst).Nodup

namespace GoMap

/-- The empty map, `make(map[string]*parseCacheValue)`. -/
def empty : GoMap := ⟨[], List.nodup_nil⟩

/-- The Go builtin `len(m)`. -/
def len (m : GoMap) : Nat := m.entries.length

/-- The index expression `m[q]`: the stored pointer, nil when `q` has no entry. -/
def get (m : GoMap) (q : String) : Option parseCacheValue :=
  match m.entries.find? (fun kv => kv.1 == q) with
  | some kv => kv.2
  | none => none

/-- The Go builtin `delete(m, k)`. -/
def delete (m : GoMap) (k : String) : GoMap :=
  ⟨m.entries.filter (fun kv => kv.1 != k), by
    have h := m.nodup
    exact (h.sublist ((List.filter_sublist m.entries).map Prod.fst))⟩

/-- The assignment `m[q] = pcv`. -/
def set (m : GoMap) (q : String) (pcv : Option parseCacheValue) : GoMap :=
  ⟨m.entries.filter (fun kv => kv.1 != q) ++ [(q, pcv)], by
    have h := (m.delete q).nodup
    simp only [delete] at h
    rw [List.map_append, List.nodup_append]
    refine ⟨h, by simp, ?_⟩
    intro a ha hb
    simp only [List.map_cons, List.map_nil, List.mem_singleton] at hb
    subst hb
    simp [List.mem_filter] at ha⟩

/-- The keys of the map. -/
def keys (m : GoMap) : List String := m.entries.map Prod.fst

end GoMap

/-- An order in which a `range` statement may visit the elements of `xs`: each
element is put at the position the next number of `order` names.  Every
permutation of `xs` arises from some `order`. -/
def rangeOrder {α : Type} (order : List Nat) : List α → List α
  | [] => []
  | x :: xs => (rangeOrder order.tail xs).insertIdx (order.headD 0 % (xs.length + 1)) x

/-- The type `parseCache` under its lock; the two counters are `uint64`. -/
structure parseCache where
  m : GoMap
  requests : Nat
  misses : Nat

/-- The constant `parseCacheMaxLen = 10e3`. -/
def parseCacheMaxLen : Nat := 10000

/-- Rounding of a natural number to 53 significant bits, ties to even, as in the
arithmetic of `float64`: `N` is `q * 2^s + r` with `s` the number of its bits beyond
the leading 53.  For a value `N * 2^-k` in the normal range of `float64`, the nearest
`float64` is `round53 N * 2^-k`. -/
def round53 (N : Nat) : Nat :=
  let s := Nat.size N - 53
  let q := N / 2 ^ s
  let r := N % 2 ^ s
  if 2 * r > 2 ^ s ∨ (2 * r = 2 ^ s ∧ q % 2 = 1) then (q + 1) * 2 ^ s else q * 2 ^ s

/-- The constant `0.1` as a `float64`, bit pattern `0x3FB999999999999A`: it is
`tenthSignificand * 2^-55`. -/
def tenthSignificand : Nat := 3602879701896397

/-- The expression `int(float64(n) * 0.1)`: the conversion of `n` to `float64`, the
product with the `float64` constant `0.1`, rounded to `float64`, and the conversion
to `int`, which drops the fraction.  For `n` below `2^52` it is `n / 10`
(`tenPercent_eq` below). -/
def tenPercent (n : Nat) : Int :=
  ((round53 (round53 n * tenthSignificand) / 2 ^ 55 : Nat) : Int)

namespace parseCache

/-- The initial value of `parseCacheV`. -/
def empty : parseCache := ⟨GoMap.empty, 0, 0⟩

/-- The method `Requests`. -/
def Requests (pc : parseCache) : Nat := pc.requests

/-- The method `Misses`. -/
def Misses (pc : parseCache) : Nat := pc.misses

/-- The method `Len`. -/
def Len (pc : parseCache) : Nat := pc.m.len

/-- The method `Get`: the cache after the call and the pointer returned. -/
def Get (pc : parseCache) (q : String) : parseCache × Option parseCacheValue :=
  let requests := (pc.requests + 1) % 2 ^ 64
  let pcv := pc.m.get q
  match pcv with
  | none => (⟨pc.m, requests, (pc.misses + 1) % 2 ^ 64⟩, pcv)
  | some _ => (⟨pc.m, requests, pc.misses⟩, pcv)

/-- The eviction loop of `Put`, `for k := range pc.m`, over the keys in the order
the statement visits them. -/
def evictLoop (m : GoMap) (overflow : Int) : List String → GoMap
  | [] => m
  | k :: ks =>
    let m := m.delete k
    let overflow := overflow - 1
    if overflow ≤ 0 then m else evictLoop m overflow ks

/-- The method `Put`; `order` fixes the order in which the map is ranged over. -/
def Put (pc : parseCache) (q : String) (pcv : Option parseCacheValue)
    (order : List Nat) : parseCache :=
  let overflow : Int := (pc.m.len : Int) - (parseCacheMaxLen : Int)
  let m :=
    if overflow > 0 then
      -- Remove 10% of items from the cache.
      evictLoop pc.m (tenPercent pc.m.len) (rangeOrder order pc.m.keys)
    else pc.m
  ⟨m.set q pcv, pc.requests, pc.misses⟩

end parseCache

/-! ## The executor -/

/-- The state `Exec` works on: the package variable `parseCacheV`, and the record
of the calls made to the parser and to the evaluator. -/
structure World where
  parseCacheV : parseCache
  parseCalls : List String
  evalCalls : List (EvalConfig × Expr)

/-- The function `parsePromQLWithCache`: the state after the call and Go's pair
`(expr, error)`. -/
def parsePromQLWithCache (ext : Externals) (order : List Nat) (w : World) (q : String) :
    World × Expr × Option GoError :=
  let (pc, pcv) := w.parseCacheV.Get q
  let (w, pcv) :=
    match pcv with
    | none =>
      let (e, err) := ext.parsePromQL q
      let pcv : parseCacheValue := { e := e, err := err }
      (({ w with parseCacheV := pc.Put q (some pcv) order,
                 parseCalls := w.parseCalls ++ [q] } : World), pcv)
    | some pcv => (({ w with parseCacheV := pc } : World), pcv)
  match pcv.err with
  | some err => (w, Expr.nilExpr, some err)
  | none => (w, pcv.e, none)

/-- The function `ExpandWithExprs`. -/
def ExpandWithExprs (ext : Externals) (order : List Nat) (w : World) (q : String) :
    World × Bytes × Option GoError :=
  match parsePromQLWithCache ext order w q with
  | (w, _, some err) => (w, [], some err)
  | (w, e, none) => (w, ext.AppendString e, none)

/-- The body of the loop of `Exec` that removes the additional point from one
series; `none` when a slice bound is out of range. -/
def trimLast (ts : timeseries) : Option timeseries :=
  match ts.Values.upTo ((ts.Values.len : Int) - 1) with
  | none => none
  | some values =>
    -- ts.Timestamps may be shared between timeseries, so truncate it with
    -- len(ts.Values) instead of len(ts.Timestamps)-1
    match ts.Timestamps.upTo (values.len : Int) with
    | none => none
    | some timestamps => some { ts with Values := values, Timestamps := timestamps }

/-- The loop `for _, ts := range rv` of `Exec`. -/
def trimAll : List timeseries → Option (List timeseries)
  | [] => some []
  | ts :: rv =>
    match trimLast ts with
    | none => none
    | some ts => (trimAll rv).map (fun rv => ts :: rv)

/-- What a call of `Exec` that returns leaves behind: the state, the config behind
the pointer `ec`, and Go's pair `(result, err)`. -/
structure ExecReturn where
  world : World
  ec : EvalConfig
  result : Option (List Result)
  err : Option GoError

/-- The function `Exec`; `none` when it panics. -/
def Exec (ext : Externals) (order : List Nat) (w : World) (ec : EvalConfig) (q : String) :
    Option ExecReturn :=
  if ext.validate ec then
    match parsePromQLWithCache ext order w q with
    | (w, _, some err) => some ⟨w, ec, none, some err⟩
    | (w, e, none) =>
      -- Add an additional point to the end.
      let ec : EvalConfig := { ec with End := wrapInt64 (ec.End + ec.Step) }
      let w : World := { w with evalCalls := w.evalCalls ++ [(ec, e)] }
      match ext.evalExpr ec e with
      | (_, some err) => some ⟨w, ec, none, some err⟩
      | (rv, none) =>
        -- Remove the additional point at the end.
        match trimAll rv with
        | none => none
        | some rv =>
          let ec : EvalConfig := { ec with End := wrapInt64 (ec.End - ec.Step) }
          let maySort := maySortResults e rv
          match timeseriesToResult ext rv maySort with
          | (_, some err) => some ⟨w, ec, none, some err⟩
          | (result, none) => some ⟨w, ec, result, none⟩
  else none

/-! ## The byte buffer of package `bytesutil` -/

/-- Modelled from the spec: the method `ByteBuffer.ReadAt(p, offset)` is defined in a
file of package `bytesutil` that is not among the source files, which hold its test
`TestByteBufferReadAt` only.  It panics on a negative offset and on an offset beyond
the end of the buffer `B`; it then copies bytes from `B[offset:]` to `p` and panics
when fewer than `len(p)` bytes were copied.  The value is the pair of `p` and `B`
after the call, `none` for a panic. -/
def ByteBuffer.ReadAt (B : Bytes) (p : Bytes) (offset : Int) : Option (Bytes × Bytes) :=
  if offset < 0 then none
  else if offset > (B.length : Int) then none
  else
    let src := B.drop offset.toNat
    let n := min p.length src.length
    if n < p.length then none
    else some (src.take n ++ p.drop n, B)

/-- The bytes of the string `foobar baz` of `TestByteBufferReadAt`. -/
def testStr : Bytes := [102, 111, 111, 98, 97, 114, 32, 98, 97, 122]

/-! ## Auxiliary definitions used in the statements -/

/-- The canonical key of a series: its marshaled metric name. -/
def keyOf (ext : Externals) (ts : timeseries) : Bytes :=
  ext.marshalMetricNameSorted ts.MetricName

/-- The result built from a series that passes the duplicate check. -/
def resultOf (ext : Externals) (ts : timeseries) : Result :=
  copyResult (keyOf ext ts) ts

/-- A series with at least one value that is not NaN. -/
def hasValue (ts : timeseries) : Bool :=
  ts.Values.elems.any (fun v => !isNaN v)

/-- The keys of the series that survive the NaN filter are pairwise distinct. -/
def distinctKeys (ext : Externals) (tss : List timeseries) : Prop :=
  ((removeNaNs tss).map (keyOf ext)).Nodup

instance (ext : Externals) (tss : List timeseries) : Decidable (distinctKeys ext tss) := by
  unfold distinctKeys; infer_instance

/-- The results are in strictly ascending byte order of their marshaled names. -/
def ascending (l : List Result) : Prop :=
  l.Pairwise (fun a b => bytesLess a.MetricNameMarshaled b.MetricNameMarshaled = true)

/-- What the trimming loop of `Exec` makes of one series: the same name, the values
without the last one, and the first `len(Values) - 1` elements of the timestamps'
backing array. -/
def trimmedFrom (ts ts' : timeseries) : Prop :=
  ts'.MetricName = ts.MetricName
  ∧ ts'.Values.elems = ts.Values.elems.dropLast
  ∧ ts'.Timestamps.elems
      = (ts.Timestamps.elems ++ ts.Timestamps.spare).take (ts.Values.len - 1)

/-- The config with which `Exec` calls the evaluator: `End` advanced by `Step`. -/
def EvalConfig.extended (ec : EvalConfig) : EvalConfig :=
  { ec with End := wrapInt64 (ec.End + ec.Step) }

/-- The config `Exec` leaves behind after the trimming loop: `End` advanced by `Step`
and then moved back by `Step`. -/
def EvalConfig.restored (ec : EvalConfig) : EvalConfig :=
  { ec with End := wrapInt64 (wrapInt64 (ec.End + ec.Step) - ec.Step) }

/-- The state with one more recorded call of the evaluator. -/
def World.withEval (w : World) (ec : EvalConfig) (e : Expr) : World :=
  { w with evalCalls := w.evalCalls ++ [(ec, e)] }

/-- One pass of the loop `for _, ts := range rv` of `Exec`, seen on the series behind
the pointers of `rv`: the pass for position `i` trims the series at that position and
writes to no other one; `none` when a slice bound is out of range. -/
def trimAt (rv : List timeseries) (i : Nat) : Option (List timeseries) :=
  match rv[i]? with
  | none => some rv
  | some ts => (trimLast ts).map (fun ts' => rv.set i ts')

/-- The passes for the positions `i`, `i + 1`, ..., `i + n - 1`, in this order. -/
def trimPasses : Nat → Nat → List timeseries → Option (List timeseries)
  | 0, _, rv => some rv
  | n + 1, i, rv => (trimAt rv i).bind (trimPasses n (i + 1))

/-- A sequence of calls on the parse cache. -/
inductive CacheCall where
  | get (q : String)
  | put (q : String) (pcv : Option parseCacheValue) (order : List Nat)

/-- The cache after one call. -/
def CacheCall.run (pc : parseCache) : CacheCall → parseCache
  | CacheCall.get q => (pc.Get q).1
  | CacheCall.put q pcv order => pc.Put q pcv order

/-- The cache after a sequence of calls, the first call first. -/
def runCalls (pc : parseCache) (calls : List CacheCall) : parseCache :=
  calls.foldl CacheCall.run pc

/-- The pair `(expr, error)` that `parsePromQLWithCache` returns for the cache value
`pcv`. -/
def parseCacheValue.outcome (pcv : parseCacheValue) : Expr × Option GoError :=
  match pcv.err with
  | some err => (Expr.nilExpr, some err)
  | none => (pcv.e, none)

/-- The query text number `i`: the letter q repeated `i` times. -/
def queryText (i : Nat) : String := String.mk (List.replicate i 'q')

/-- The calls `Put(queryText i, ..)` for `i` from 0 to `n - 1`: `n` insertions of
distinct query texts. -/
def distinctPuts (n : Nat) : List CacheCall :=
  (List.range n).map
    (fun i => CacheCall.put (queryText i) (some ⟨Expr.otherExpr i, none⟩) [])

/-- The state of the package before any call. -/
def World.initial : World := ⟨parseCache.empty, [], []⟩

/-! ## Concrete inputs

A stubbed parser and evaluator, and a few series, on which the functions are
evaluated in the examples below. -/

/-- The `float64` value 1. -/
def f64One : Float64 := 0x3FF0000000000000

/-- The `float64` value 2. -/
def f64Two : Float64 := 0x4000000000000000

/-- The `float64` value that `math.NaN()` returns. -/
def f64NaN : Float64 := 0x7FF8000000000001

/-- Collaborators for the examples: the parser returns `parsed` for every text, the
evaluator returns `evaluated` for every config and expression, the validation is the
check that `Start ≤ End` and `0 < Step`, and a metric name is marshaled as its group
name followed by its labels, each name and value preceded by a length byte. -/
def stubExt (parsed : Expr × Option GoError)
    (evaluated : List timeseries × Option GoError) : Externals where
  parsePromQL := fun _ => parsed
  evalExpr := fun _ _ => evaluated
  validate := fun ec => decide (ec.Start ≤ ec.End ∧ 0 < ec.Step)
  marshalMetricNameSorted := fun mn =>
    mn.MetricGroup ++ (mn.Tags.map (fun t => t.1.length :: t.1 ++ t.2.length :: t.2)).flatten
  AppendString := fun _ => []

/-- The metric name `up` without labels. -/
def nameUp : MetricName := ⟨[117, 112], []⟩

/-- The metric name `foo` without labels. -/
def nameFoo : MetricName := ⟨[102, 111, 111], []⟩

/-- A series `up` with the values 1, 2 and as many timestamps. -/
def seriesUp : timeseries :=
  ⟨nameUp, Slice.ofList [f64One, f64Two], Slice.ofList [10, 20]⟩

/-- A series `foo` with the values 2, 1 and as many timestamps. -/
def seriesFoo : timeseries :=
  ⟨nameFoo, Slice.ofList [f64Two, f64One], Slice.ofList [10, 20]⟩

/-- A second series named `up`, all of whose values are NaN. -/
def seriesUpNaN : timeseries :=
  ⟨nameUp, Slice.ofList [f64NaN, f64NaN], Slice.ofList [10, 20]⟩

/-- A second series named `up` with a value that is not NaN. -/
def seriesUpAgain : timeseries :=
  ⟨nameUp, Slice.ofList [f64NaN, f64Two], Slice.ofList [10, 20]⟩

/-- A series `foo` with two values and a view on three timestamps. -/
def seriesLongTimestamps : timeseries :=
  ⟨nameFoo, Slice.ofList [f64One, f64Two], Slice.ofList [10, 20, 30]⟩

/-- The stub whose evaluator returns the series `foo` with two values and three
timestamps. -/
def longTimestampsExt : Externals :=
  stubExt (Expr.otherExpr 0, none) ([seriesLongTimestamps], none)

/-- The stub whose evaluator returns the series `up` and `foo`. -/
def twoSeriesExt : Externals :=
  stubExt (Expr.otherExpr 0, none) ([seriesUp, seriesFoo], none)

/-- The stub whose evaluator fails. -/
def failingEvalExt : Externals :=
  stubExt (Expr.otherExpr 0, none) ([], some (GoError.external "storage error"))

/-- The stub whose parser returns a call of `sort_desc` and whose evaluator returns
the series `up` and `foo`, in this order. -/
def sortDescExt : Externals :=
  stubExt (Expr.funcExpr "sort_desc", none) ([seriesUp, seriesFoo], none)

/-- The stub whose parser fails. -/
def failingParseExt : Externals :=
  stubExt (Expr.nilExpr, some (GoError.external "parse error")) ([], none)

/-- A cache with 41 requests and 7 misses so far that holds the value `otherExpr 0`
for the text `up`. -/
def sampleCache : parseCache :=
  ⟨GoMap.empty.set "up" (some ⟨Expr.otherExpr 0, none⟩), 41, 7⟩

/-- A series `up` with three values and a view on the timestamps 10, 20, 30. -/
def seriesSharedA : timeseries :=
  ⟨nameUp, Slice.ofList [f64One, f64Two, f64One], Slice.ofList [10, 20, 30]⟩

/-- A series `foo` with two values and a view on the same timestamps 10, 20, 30. -/
def seriesSharedB : timeseries :=
  ⟨nameFoo, Slice.ofList [f64One, f64Two], Slice.ofList [10, 20, 30]⟩

/-- A series `foo` without values. -/
def seriesEmpty : timeseries :=
  ⟨nameFoo, Slice.ofList [], Slice.ofList []⟩

/-- The stub whose evaluator returns the series `up` and a series without values. -/
def emptySeriesExt : Externals :=
  stubExt (Expr.otherExpr 0, none) ([seriesUp, seriesEmpty], none)

/-- A valid config: the window from 0 to 100 in steps of 10. -/
def sampleConfig : EvalConfig := ⟨0, 100, 10⟩

/-- The stub with a successful parse of a plain expression and no evaluator output. -/
def plainExt : Externals := stubExt (Expr.otherExpr 0, none) ([], none)

/-! ## Lemmas on `removeNaNs` -/

theorem countNaNs_eq (vs : List Float64) (n : Nat) :
    countNaNs n vs = n + vs.countP isNaN := by
  induction vs generalizing n with
  | nil => simp [countNaNs]
  | cons v vs ih =>
    simp only [countNaNs, ih, List.countP_cons]
    split <;> omega

theorem countNaNs_eq_len_iff (ts : timeseries) :
    (countNaNs 0 ts.Values.elems == ts.Values.len) = !hasValue ts := by
  rw [countNaNs_eq, Nat.zero_add, Slice.len, hasValue]
  rw [Bool.eq_iff_iff]
  simp only [beq_iff_eq, List.countP_eq_length, Bool.not_eq_true', List.any_eq_false,
    Bool.not_eq_true, Bool.not_eq_false']
  constructor
  · intro h v hv; simpa using h v hv
  · intro h v hv; simpa using h v hv

theorem removeNaNsLoop_eq (tss rvs : List timeseries) :
    removeNaNsLoop rvs tss = rvs ++ tss.filter hasValue := by
  induction tss generalizing rvs with
  | nil => simp [removeNaNsLoop]
  | cons ts tss ih =>
    simp only [removeNaNsLoop, countNaNs_eq_len_iff, ih, List.filter_cons]
    cases hasValue ts <;> simp

theorem removeNaNs_eq_filter (tss : List timeseries) :
    removeNaNs tss = tss.filter hasValue := by
  simp [removeNaNs, removeNaNsLoop_eq]

theorem pairwise_of_filter {α : Type} (p : α → Bool) (R : α → α → Prop) (l : List α)
    (h : (l.filter p).Pairwise R) :
    l.Pairwise (fun a b => p a = true → p b = true → R a b) := by
  induction l with
  | nil => exact List.Pairwise.nil
  | cons x xs ih =>
    by_cases hx : p x = true
    · rw [List.filter_cons_of_pos hx, List.pairwise_cons] at h
      refine List.pairwise_cons.2 ⟨?_, ih h.2⟩
      intro b hb _ hpb
      exact h.1 b (List.mem_filter.2 ⟨hb, hpb⟩)
    · rw [List.filter_cons_of_neg hx] at h
      refine List.pairwise_cons.2 ⟨?_, ih h⟩
      intro b _ hpx
      exact absurd hpx hx

/-! ## Lemmas on the loop of `timeseriesToResult` -/

theorem timeseriesToResultLoop_ok (ext : Externals) (tss : List timeseries)
    (m : List Bytes) (result : List Result)
    (hm : ∀ ts ∈ tss, keyOf ext ts ∉ m) (hnd : (tss.map (keyOf ext)).Nodup) :
    timeseriesToResultLoop ext m result tss
      = (some (result ++ tss.map (resultOf ext)), none) := by
  induction tss generalizing m result with
  | nil => simp [timeseriesToResultLoop]
  | cons ts tss ih =>
    have h1 : keyOf ext ts ∉ m := hm ts (List.mem_cons_self _ _)
    rw [List.map_cons, List.nodup_cons] at hnd
    have h2 : (m.contains (ext.marshalMetricNameSorted ts.MetricName)) = false := by
      simpa [keyOf] using h1
    simp only [timeseriesToResultLoop, h2]
    rw [ih]
    · simp [resultOf, keyOf]
    · intro t ht hmem
      rcases List.mem_cons.1 hmem with h | h
      · exact hnd.1 (List.mem_map.2 ⟨t, ht, h⟩)
      · exact hm t (List.mem_cons_of_mem _ ht) h
    · exact hnd.2

theorem timeseriesToResultLoop_err (ext : Externals) (tss : List timeseries)
    (m : List Bytes) (result : List Result)
    (h : ¬ ((∀ ts ∈ tss, keyOf ext ts ∉ m) ∧ (tss.map (keyOf ext)).Nodup)) :
    ∃ ts ∈ tss, timeseriesToResultLoop ext m result tss
      = (none, some (GoError.duplicateOutput ts.MetricName)) := by
  induction tss generalizing m result with
  | nil => exact absurd ⟨by simp, by simp⟩ h
  | cons ts tss ih =>
    by_cases h1 : keyOf ext ts ∈ m
    · refine ⟨ts, List.mem_cons_self _ _, ?_⟩
      have h2 : (m.contains (ext.marshalMetricNameSorted ts.MetricName)) = true := by
        simpa [keyOf] using h1
      simp only [timeseriesToResultLoop, h2, if_true]
    · have h2 : (m.contains (ext.marshalMetricNameSorted ts.MetricName)) = false := by
        simpa [keyOf] using h1
      have h3 : ¬ ((∀ t ∈ tss, keyOf ext t ∉ keyOf ext ts :: m)
          ∧ (tss.map (keyOf ext)).Nodup) := by
        rintro ⟨ha, hb⟩
        apply h
        refine ⟨?_, ?_⟩
        · intro t ht
          rcases List.mem_cons.1 ht with rfl | ht
          · exact h1
          · exact fun hmem => ha t ht (List.mem_cons_of_mem _ hmem)
        · rw [List.map_cons, List.nodup_cons]
          refine ⟨?_, hb⟩
          intro hmem
          obtain ⟨t, ht, hk⟩ := List.mem_map.1 hmem
          exact ha t ht (by rw [hk]; exact List.mem_cons_self _ _)
      obtain ⟨t, ht, hres⟩ := ih (keyOf ext ts :: m) (result ++ [copyResult
        (ext.marshalMetricNameSorted ts.MetricName) ts]) h3
      refine ⟨t, List.mem_cons_of_mem _ ht, ?_⟩
      simp only [timeseriesToResultLoop, h2]
      exact hres

theorem timeseriesToResult_ok (ext : Externals) (tss : List timeseries) (maySort : Bool)
    (h : distinctKeys ext tss) :
    timeseriesToResult ext tss maySort
      = (some (if maySort then sortSlice resultLess ((removeNaNs tss).map (resultOf ext))
               else (removeNaNs tss).map (resultOf ext)), none) := by
  simp only [timeseriesToResult]
  rw [timeseriesToResultLoop_ok ext _ [] [] (by simp) h]
  cases maySort <;> simp

theorem timeseriesToResult_err (ext : Externals) (tss : List timeseries) (maySort : Bool)
    (h : ¬ distinctKeys ext tss) :
    ∃ ts ∈ removeNaNs tss, timeseriesToResult ext tss maySort
      = (none, some (GoError.duplicateOutput ts.MetricName)) := by
  obtain ⟨ts, hts, hres⟩ := timeseriesToResultLoop_err ext (removeNaNs tss) [] []
    (fun hh => h hh.2)
  refine ⟨ts, hts, ?_⟩
  simp only [timeseriesToResult]
  rw [hres]

/-! ## Lemmas on the byte order and on `sortSlice` -/

theorem bytesLess_irrefl (a : Bytes) : bytesLess a a = false := by
  induction a with
  | nil => rfl
  | cons x xs ih => simp [bytesLess, ih]

theorem bytesLess_trans (a b c : Bytes) (hab : bytesLess a b = true)
    (hbc : bytesLess b c = true) : bytesLess a c = true := by
  induction a generalizing b c with
  | nil =>
    cases b with
    | nil => simp [bytesLess] at hab
    | cons y ys =>
      cases c with
      | nil => simp [bytesLess] at hbc
      | cons z zs => simp [bytesLess]
  | cons x xs ih =>
    cases b with
    | nil => simp [bytesLess] at hab
    | cons y ys =>
      cases c with
      | nil => simp [bytesLess] at hbc
      | cons z zs =>
        simp only [bytesLess, Bool.or_eq_true, decide_eq_true_eq, Bool.and_eq_true,
          beq_iff_eq] at hab hbc ⊢
        rcases hab with h1 | ⟨h1, h1r⟩
        · rcases hbc with h2 | ⟨h2, _⟩
          · exact Or.inl (by omega)
          · exact Or.inl (by omega)
        · rcases hbc with h2 | ⟨h2, h2r⟩
          · exact Or.inl (by omega)
          · exact Or.inr ⟨by omega, ih ys zs h1r h2r⟩

theorem bytesLess_total (a b : Bytes) (hne : a ≠ b) (hab : bytesLess a b = false) :
    bytesLess b a = true := by
  induction a generalizing b with
  | nil =>
    cases b with
    | nil => exact absurd rfl hne
    | cons y ys => simp [bytesLess] at hab
  | cons x xs ih =>
    cases b with
    | nil => simp [bytesLess]
    | cons y ys =>
      simp only [bytesLess, Bool.or_eq_false_iff, decide_eq_false_iff_not,
        Bool.and_eq_false_imp, beq_iff_eq] at hab
      simp only [bytesLess, Bool.or_eq_true, decide_eq_true_eq, Bool.and_eq_true, beq_iff_eq]
      by_cases hxy : x = y
      · subst hxy
        refine Or.inr ⟨rfl, ih ys ?_ (hab.2 rfl)⟩
        intro h; exact hne (by rw [h])
      · exact Or.inl (by omega)

theorem orderedInsert_perm {α : Type} (less : α → α → Bool) (x : α) (l : List α) :
    (orderedInsert less x l).Perm (x :: l) := by
  induction l with
  | nil => exact List.Perm.refl _
  | cons y ys ih =>
    simp only [orderedInsert]
    split
    · exact List.Perm.refl _
    · exact (ih.cons y).trans (List.Perm.swap x y ys)

theorem sortSlice_perm {α : Type} (less : α → α → Bool) (l : List α) :
    (sortSlice less l).Perm l := by
  induction l with
  | nil => exact List.Perm.refl _
  | cons x xs ih =>
    exact (orderedInsert_perm less x _).trans (ih.cons x)

theorem orderedInsert_ascending (x : Result) (l : List Result) (hl : ascending l)
    (hx : ∀ y ∈ l, y.MetricNameMarshaled ≠ x.MetricNameMarshaled) :
    ascending (orderedInsert resultLess x l) := by
  induction l with
  | nil => simp [orderedInsert, ascending]
  | cons y ys ih =>
    unfold ascending at hl ⊢
    rw [List.pairwise_cons] at hl
    simp only [orderedInsert]
    by_cases hless : resultLess x y = true
    · rw [if_pos hless]
      refine List.pairwise_cons.2 ⟨?_, List.pairwise_cons.2 hl⟩
      intro z hz
      rcases List.mem_cons.1 hz with rfl | hz
      · exact hless
      · exact bytesLess_trans _ _ _ hless (hl.1 z hz)
    · rw [if_neg hless]
      have hyx : bytesLess y.MetricNameMarshaled x.MetricNameMarshaled = true := by
        apply bytesLess_total
        · exact fun h => hx y (List.mem_cons_self _ _) h.symm
        · simpa [resultLess] using hless
      refine List.pairwise_cons.2 ⟨?_, ih hl.2 (fun z hz => hx z (List.mem_cons_of_mem _ hz))⟩
      intro z hz
      rcases List.mem_cons.1 ((orderedInsert_perm resultLess x ys).subset hz) with rfl | hz
      · exact hyx
      · exact hl.1 z hz

theorem sortSlice_ascending (l : List Result)
    (hnd : (l.map Result.MetricNameMarshaled).Nodup) :
    ascending (sortSlice resultLess l) := by
  induction l with
  | nil => simp [sortSlice, ascending]
  | cons x xs ih =>
    rw [List.map_cons, List.nodup_cons] at hnd
    apply orderedInsert_ascending x _ (ih hnd.2)
    intro y hy hk
    exact hnd.1 (List.mem_map.2 ⟨y, (sortSlice_perm resultLess xs).subset hy, hk⟩)

theorem map_resultOf_key (ext : Externals) (tss : List timeseries) :
    (tss.map (resultOf ext)).map Result.MetricNameMarshaled = tss.map (keyOf ext) := by
  simp [resultOf, copyResult, Function.comp_def]

theorem timeseriesToResult_cases (ext : Externals) (tss : List timeseries)
    (maySort : Bool) :
    (distinctKeys ext tss ∧ timeseriesToResult ext tss maySort
      = (some (if maySort then sortSlice resultLess ((removeNaNs tss).map (resultOf ext))
               else (removeNaNs tss).map (resultOf ext)), none))
    ∨ (¬ distinctKeys ext tss ∧ ∃ ts ∈ removeNaNs tss, timeseriesToResult ext tss maySort
      = (none, some (GoError.duplicateOutput ts.MetricName))) := by
  by_cases h : distinctKeys ext tss
  · exact Or.inl ⟨h, timeseriesToResult_ok ext tss maySort h⟩
  · exact Or.inr ⟨h, timeseriesToResult_err ext tss maySort h⟩

/-! ## Lemmas on the trimming loop and on `Exec` -/

theorem wrapInt64_of_isInt64 (x : Int) (h : isInt64 x) : wrapInt64 x = x := by
  unfold isInt64 at h
  unfold wrapInt64
  omega

theorem wrapInt64_add_sub (x y : Int) (h : isInt64 x) :
    wrapInt64 (wrapInt64 (x + y) - y) = x := by
  unfold isInt64 at h
  unfold wrapInt64
  omega

theorem Slice.upTo_neg {α : Type} (s : Slice α) (hi : Int) (h : hi < 0) :
    s.upTo hi = none := by
  unfold Slice.upTo
  rw [if_neg]
  omega

theorem Slice.upTo_nat {α : Type} (s : Slice α) (n : Nat) :
    s.upTo (n : Int) = if n ≤ s.cap then
      some ⟨(s.elems ++ s.spare).take n, (s.elems ++ s.spare).drop n⟩ else none := by
  unfold Slice.upTo
  by_cases h : n ≤ s.cap
  · rw [if_pos h, if_pos ⟨by omega, by omega⟩, Int.toNat_ofNat]
  · rw [if_neg h, if_neg]
    omega

theorem trimLast_eq (ts : timeseries) :
    trimLast ts = if 1 ≤ ts.Values.len ∧ ts.Values.len - 1 ≤ ts.Timestamps.cap then
      some ⟨ts.MetricName,
        ⟨ts.Values.elems.dropLast,
          (ts.Values.elems ++ ts.Values.spare).drop (ts.Values.len - 1)⟩,
        ⟨(ts.Timestamps.elems ++ ts.Timestamps.spare).take (ts.Values.len - 1),
          (ts.Timestamps.elems ++ ts.Timestamps.spare).drop (ts.Values.len - 1)⟩⟩
    else none := by
  unfold trimLast
  by_cases h1 : 1 ≤ ts.Values.len
  · have hcast : ((ts.Values.len : Int) - 1) = ((ts.Values.len - 1 : Nat) : Int) := by omega
    have hcap : ts.Values.len - 1 ≤ ts.Values.cap := by
      simp only [Slice.cap, Slice.len]; omega
    have hvals : (ts.Values.elems ++ ts.Values.spare).take (ts.Values.len - 1)
        = ts.Values.elems.dropLast := by
      rw [List.dropLast_eq_take, List.take_append_of_le_length]
      · rfl
      · simp [Slice.len]
    rw [hcast, Slice.upTo_nat, if_pos hcap, hvals]
    have hl : Slice.len (⟨ts.Values.elems.dropLast,
        (ts.Values.elems ++ ts.Values.spare).drop (ts.Values.len - 1)⟩ : Slice Float64)
        = ts.Values.len - 1 := by
      simp [Slice.len]
    simp only [hl, Slice.upTo_nat]
    by_cases h2 : ts.Values.len - 1 ≤ ts.Timestamps.cap
    · rw [if_pos h2, if_pos ⟨h1, h2⟩]
    · rw [if_neg h2, if_neg (fun hh => h2 hh.2)]
  · rw [Slice.upTo_neg _ _ (by omega), if_neg (fun hh => h1 hh.1)]

theorem trimLast_some (ts ts' : timeseries) (h : trimLast ts = some ts') :
    1 ≤ ts.Values.len ∧ ts.Values.len - 1 ≤ ts.Timestamps.cap
    ∧ ts'.MetricName = ts.MetricName
    ∧ ts'.Values.elems = ts.Values.elems.dropLast
    ∧ ts'.Timestamps.elems
        = (ts.Timestamps.elems ++ ts.Timestamps.spare).take (ts.Values.len - 1) := by
  rw [trimLast_eq] at h
  by_cases hc : 1 ≤ ts.Values.len ∧ ts.Values.len - 1 ≤ ts.Timestamps.cap
  · rw [if_pos hc, Option.some.injEq] at h
    subst h
    exact ⟨hc.1, hc.2, rfl, rfl, rfl⟩
  · rw [if_neg hc] at h
    exact absurd h (by simp)

theorem trimLast_isSome (ts : timeseries) (h1 : 1 ≤ ts.Values.len)
    (h2 : ts.Values.len - 1 ≤ ts.Timestamps.cap) : ∃ ts', trimLast ts = some ts' := by
  rw [trimLast_eq, if_pos ⟨h1, h2⟩]
  exact ⟨_, rfl⟩

theorem trimAll_some (rv rv' : List timeseries) (h : trimAll rv = some rv') :
    List.Forall₂ trimmedFrom rv rv'
    ∧ ∀ ts ∈ rv, 1 ≤ ts.Values.len ∧ ts.Values.len - 1 ≤ ts.Timestamps.cap := by
  induction rv generalizing rv' with
  | nil =>
    simp only [trimAll, Option.some.injEq] at h
    subst h
    exact ⟨List.Forall₂.nil, by simp⟩
  | cons ts rv ih =>
    simp only [trimAll] at h
    cases h1 : trimLast ts with
    | none => simp [h1] at h
    | some ts' =>
      cases h2 : trimAll rv with
      | none => simp [h1, h2] at h
      | some rest =>
        simp only [h1, h2, Option.map_some', Option.some.injEq] at h
        subst h
        obtain ⟨ha, hb, hc, hd, he⟩ := trimLast_some ts ts' h1
        obtain ⟨hf, hg⟩ := ih rest h2
        refine ⟨List.Forall₂.cons ⟨hc, hd, he⟩ hf, ?_⟩
        intro t ht
        rcases List.mem_cons.1 ht with rfl | ht
        · exact ⟨ha, hb⟩
        · exact hg t ht

theorem trimAll_isSome (rv : List timeseries)
    (h : ∀ ts ∈ rv, 1 ≤ ts.Values.len ∧ ts.Values.len - 1 ≤ ts.Timestamps.cap) :
    ∃ rv', trimAll rv = some rv' := by
  induction rv with
  | nil => exact ⟨[], rfl⟩
  | cons ts rv ih =>
    obtain ⟨ts', h1⟩ := trimLast_isSome ts (h ts (List.mem_cons_self _ _)).1
      (h ts (List.mem_cons_self _ _)).2
    obtain ⟨rest, h2⟩ := ih (fun t ht => h t (List.mem_cons_of_mem _ ht))
    exact ⟨ts' :: rest, by simp [trimAll, h1, h2]⟩

theorem Exec_invalid (ext : Externals) (order : List Nat) (w : World) (ec : EvalConfig)
    (q : String) (hv : ext.validate ec = false) : Exec ext order w ec q = none := by
  simp [Exec, hv]

theorem Exec_parse_err (ext : Externals) (order : List Nat) (w w1 : World)
    (ec : EvalConfig) (q : String) (e : Expr) (err : GoError)
    (hv : ext.validate ec = true)
    (hp : parsePromQLWithCache ext order w q = (w1, e, some err)) :
    Exec ext order w ec q = some ⟨w1, ec, none, some err⟩ := by
  simp [Exec, hv, hp]

theorem Exec_eval_err (ext : Externals) (order : List Nat) (w w1 : World)
    (ec : EvalConfig) (q : String) (e : Expr) (rv : List timeseries) (err : GoError)
    (hv : ext.validate ec = true)
    (hp : parsePromQLWithCache ext order w q = (w1, e, none))
    (he : ext.evalExpr ec.extended e = (rv, some err)) :
    Exec ext order w ec q
      = some ⟨w1.withEval ec.extended e, ec.extended, none, some err⟩ := by
  simp only [EvalConfig.extended] at he
  simp [Exec, hv, hp, he, EvalConfig.extended, World.withEval]

theorem Exec_trim_panic (ext : Externals) (order : List Nat) (w w1 : World)
    (ec : EvalConfig) (q : String) (e : Expr) (rv : List timeseries)
    (hv : ext.validate ec = true)
    (hp : parsePromQLWithCache ext order w q = (w1, e, none))
    (he : ext.evalExpr ec.extended e = (rv, none))
    (ht : trimAll rv = none) :
    Exec ext order w ec q = none := by
  simp only [EvalConfig.extended] at he
  simp [Exec, hv, hp, he, ht]

theorem Exec_eval_ok (ext : Externals) (order : List Nat) (w w1 : World)
    (ec : EvalConfig) (q : String) (e : Expr) (rv rv' : List timeseries)
    (hv : ext.validate ec = true)
    (hp : parsePromQLWithCache ext order w q = (w1, e, none))
    (he : ext.evalExpr ec.extended e = (rv, none))
    (ht : trimAll rv = some rv') :
    Exec ext order w ec q
      = some ⟨w1.withEval ec.extended e, ec.restored,
          (timeseriesToResult ext rv' (maySortResults e rv')).1,
          (timeseriesToResult ext rv' (maySortResults e rv')).2⟩ := by
  simp only [EvalConfig.extended] at he
  rcases timeseriesToResult_cases ext rv' (maySortResults e rv') with ⟨_, h⟩ | ⟨_, ts, _, h⟩
  · simp [Exec, hv, hp, he, ht, h, EvalConfig.extended, EvalConfig.restored, World.withEval]
  · simp [Exec, hv, hp, he, ht, h, EvalConfig.extended, EvalConfig.restored, World.withEval]

/-- The ways a call of `Exec` that returns without error came about. -/
theorem Exec_success (ext : Externals) (order : List Nat) (w : World) (ec : EvalConfig)
    (q : String) (ret : ExecReturn) (h : Exec ext order w ec q = some ret)
    (herr : ret.err = none) :
    ∃ rv', ext.validate ec = true
      ∧ (parsePromQLWithCache ext order w q).2.2 = none
      ∧ (ext.evalExpr ec.extended (parsePromQLWithCache ext order w q).2.1).2 = none
      ∧ trimAll (ext.evalExpr ec.extended (parsePromQLWithCache ext order w q).2.1).1
          = some rv'
      ∧ ret.ec = ec.restored
      ∧ timeseriesToResult ext rv'
          (maySortResults (parsePromQLWithCache ext order w q).2.1 rv') = (ret.result, none) := by
  cases hv : ext.validate ec with
  | false => rw [Exec_invalid ext order w ec q hv] at h; exact absurd h (by simp)
  | true =>
    rcases hp : parsePromQLWithCache ext order w q with ⟨w1, e, _ | perr⟩
    · rcases he : ext.evalExpr ec.extended e with ⟨rv, _ | eerr⟩
      · cases ht : trimAll rv with
        | none =>
          rw [Exec_trim_panic ext order w w1 ec q e rv hv hp he ht] at h
          exact absurd h (by simp)
        | some rv' =>
          rw [Exec_eval_ok ext order w w1 ec q e rv rv' hv hp he ht,
            Option.some.injEq] at h
          subst h
          simp only at herr
          refine ⟨rv', rfl, rfl, rfl, rfl, rfl, ?_⟩
          exact Prod.ext rfl herr
      · rw [Exec_eval_err ext order w w1 ec q e rv eerr hv hp he, Option.some.injEq] at h
        subst h
        exact absurd herr (by simp)
    · rw [Exec_parse_err ext order w w1 ec q e perr hv hp, Option.some.injEq] at h
      subst h
      exact absurd herr (by simp)

theorem parsePromQLWithCache_evalCalls (ext : Externals) (order : List Nat) (w : World)
    (q : String) : (parsePromQLWithCache ext order w q).1.evalCalls = w.evalCalls := by
  unfold parsePromQLWithCache
  cases hg : (w.parseCacheV.Get q).2 with
  | none =>
    rcases hpc : w.parseCacheV.Get q with ⟨pc, pcv⟩
    rw [hpc] at hg
    simp only at hg
    subst hg
    simp only
    cases (ext.parsePromQL q).2 <;> rfl
  | some v =>
    rcases hpc : w.parseCacheV.Get q with ⟨pc, pcv⟩
    rw [hpc] at hg
    simp only at hg
    subst hg
    simp only
    cases v.err <;> rfl

theorem forall₂_exists_left {α β : Type} (R : α → β → Prop) (l : List α) (l' : List β)
    (h : List.Forall₂ R l l') (b : β) (hb : b ∈ l') : ∃ a ∈ l, R a b := by
  induction h with
  | nil => exact absurd hb (List.not_mem_nil b)
  | cons hab _ ih =>
    rcases List.mem_cons.1 hb with rfl | hb
    · exact ⟨_, List.mem_cons_self _ _, hab⟩
    · obtain ⟨a, ha, hr⟩ := ih hb
      exact ⟨a, List.mem_cons_of_mem _ ha, hr⟩

/-- Every result of a successful `timeseriesToResult` is the copy of a series of the
input that has a value that is not NaN. -/
theorem timeseriesToResult_mem (ext : Externals) (tss : List timeseries) (maySort : Bool)
    (result : List Result) (h : (timeseriesToResult ext tss maySort).1 = some result)
    (r : Result) (hr : r ∈ result) :
    ∃ ts ∈ tss, hasValue ts = true ∧ r = resultOf ext ts := by
  rcases timeseriesToResult_cases ext tss maySort with ⟨_, h1⟩ | ⟨_, ts, _, h1⟩
  · rw [h1] at h
    simp only [Option.some.injEq] at h
    subst h
    have hmem : r ∈ (removeNaNs tss).map (resultOf ext) := by
      cases maySort
      · simpa using hr
      · exact (sortSlice_perm _ _).subset (by simpa using hr)
    obtain ⟨ts, hts, rfl⟩ := List.mem_map.1 hmem
    rw [removeNaNs_eq_filter, List.mem_filter] at hts
    exact ⟨ts, hts.1, hts.2, rfl⟩
  · rw [h1] at h
    exact absurd h (by simp)

/-! ## Lemmas on the rounding of `float64` -/

theorem round53_of_lt (N : Nat) (h : N < 2 ^ 53) : round53 N = N := by
  have hs : Nat.size N - 53 = 0 := by
    have := Nat.size_le.2 h
    omega
  simp [round53, hs, Nat.mod_one]

theorem round53_cases (N : Nat) :
    round53 N = N / 2 ^ (Nat.size N - 53) * 2 ^ (Nat.size N - 53)
    ∨ (round53 N = (N / 2 ^ (Nat.size N - 53) + 1) * 2 ^ (Nat.size N - 53)
      ∧ 2 ^ (Nat.size N - 53) ≤ 2 * (N % 2 ^ (Nat.size N - 53))) := by
  unfold round53
  simp only
  split
  · rename_i h
    right
    refine ⟨rfl, ?_⟩
    rcases h with h | h <;> omega
  · left; rfl

theorem round53_core (n N P A r R : Nat) (hn : n < 2 ^ 52)
    (hN : N = n * 3602879701896397) (hdm : A + r = N) (hr : r < P)
    (hA1 : n / 10 * 2 ^ 55 ≤ A) (hA2 : A + P ≤ (n / 10 + 1) * 2 ^ 55)
    (hPN : P = 1 ∨ P * 2 ^ 52 ≤ N) (hR : R = A ∨ (R = A + P ∧ P ≤ 2 * r)) :
    n / 10 * 2 ^ 55 ≤ R ∧ R < (n / 10 + 1) * 2 ^ 55 := by
  subst hN
  omega

theorem round53_mul_tenth (n : Nat) (h : n < 2 ^ 52) :
    round53 (n * tenthSignificand) / 2 ^ 55 = n / 10 := by
  obtain ⟨N, hN⟩ : ∃ N, N = n * tenthSignificand := ⟨_, rfl⟩
  obtain ⟨s, hs⟩ : ∃ s, s = Nat.size N - 53 := ⟨_, rfl⟩
  obtain ⟨P, hP⟩ : ∃ P, P = 2 ^ s := ⟨_, rfl⟩
  have hN' : N = n * 3602879701896397 := hN
  have hNlt : N < 2 ^ 104 := by omega
  have hsize : Nat.size N ≤ 104 := Nat.size_le.2 hNlt
  have hs55 : s ≤ 55 := by omega
  have hK : 2 ^ 55 = 2 ^ (55 - s) * P := by
    rw [hP, ← pow_add]
    congr 1
    omega
  have hPpos : 0 < P := by rw [hP]; positivity
  have hdm : N / P * P + N % P = N := Nat.div_add_mod' N P
  have hrlt : N % P < P := Nat.mod_lt _ hPpos
  have hPN : P = 1 ∨ P * 2 ^ 52 ≤ N := by
    by_cases h0 : s = 0
    · left; rw [hP, h0]; rfl
    · right
      have h1 : s + 52 < Nat.size N := by omega
      have h2 := Nat.lt_size.1 h1
      rw [pow_add, ← hP] at h2
      exact h2
  have hlow : n / 10 * 2 ^ 55 ≤ N := by omega
  have hup : N < (n / 10 + 1) * 2 ^ 55 := by omega
  have hq1 : n / 10 * 2 ^ (55 - s) ≤ N / P := by
    rw [Nat.le_div_iff_mul_le hPpos, Nat.mul_assoc, ← hK]
    exact hlow
  have hq2 : N / P < (n / 10 + 1) * 2 ^ (55 - s) := by
    rw [Nat.div_lt_iff_lt_mul hPpos, Nat.mul_assoc, ← hK]
    exact hup
  have hA1 : n / 10 * 2 ^ 55 ≤ N / P * P := by
    have := Nat.mul_le_mul_right P hq1
    rwa [Nat.mul_assoc, ← hK] at this
  have hA2 : N / P * P + P ≤ (n / 10 + 1) * 2 ^ 55 := by
    have := Nat.mul_le_mul_right P (Nat.succ_le_of_lt hq2)
    rw [Nat.mul_assoc, ← hK, Nat.succ_mul] at this
    exact this
  have hcases : round53 N = N / P * P
      ∨ (round53 N = N / P * P + P ∧ P ≤ 2 * (N % P)) := by
    have := round53_cases N
    rw [← hs, ← hP, Nat.succ_mul] at this
    exact this
  have hR := round53_core n N P (N / P * P) (N % P) (round53 N) h hN' hdm hrlt hA1 hA2
    hPN hcases
  rw [← hN]
  apply Nat.le_antisymm
  · exact Nat.le_of_lt_succ ((Nat.div_lt_iff_lt_mul (by positivity)).2 hR.2)
  · exact (Nat.le_div_iff_mul_le (by positivity)).2 hR.1

theorem tenPercent_eq (n : Nat) (h : n < 2 ^ 52) : tenPercent n = ((n / 10 : Nat) : Int) := by
  unfold tenPercent
  rw [round53_of_lt n (by omega), round53_mul_tenth n h]

/-! ## Lemmas on the parse cache -/

theorem rangeOrder_length {α : Type} (order : List Nat) (xs : List α) :
    (rangeOrder order xs).length = xs.length := by
  induction xs generalizing order with
  | nil => rfl
  | cons x xs ih =>
    simp only [rangeOrder]
    rw [List.length_insertIdx _ _ (by rw [ih]; exact Nat.le_of_lt_succ (Nat.mod_lt _ (by omega))),
      ih, List.length_cons]

theorem rangeOrder_perm {α : Type} (order : List Nat) (xs : List α) :
    (rangeOrder order xs).Perm xs := by
  induction xs generalizing order with
  | nil => exact List.Perm.refl _
  | cons x xs ih =>
    simp only [rangeOrder]
    refine (List.perm_insertIdx x _ ?_).trans ((ih order.tail).cons x)
    rw [rangeOrder_length]
    exact Nat.le_of_lt_succ (Nat.mod_lt _ (by omega))

theorem GoMap.get_set (m : GoMap) (q : String) (pcv : Option parseCacheValue) :
    (m.set q pcv).get q = pcv := by
  have h : (m.entries.filter (fun kv => kv.1 != q)).find? (fun kv => kv.1 == q) = none := by
    rw [List.find?_eq_none]
    intro kv hkv
    have := (List.mem_filter.1 hkv).2
    simpa using this
  simp [GoMap.get, GoMap.set, List.find?_append, h]

theorem GoMap.set_entries_of_new (m : GoMap) (q : String) (pcv : Option parseCacheValue)
    (hq : q ∉ m.keys) : (m.set q pcv).entries = m.entries ++ [(q, pcv)] := by
  have h : m.entries.filter (fun kv => kv.1 != q) = m.entries := by
    rw [List.filter_eq_self]
    intro kv hkv
    have hne : kv.1 ≠ q := fun heq => hq (heq ▸ List.mem_map.2 ⟨kv, hkv, rfl⟩)
    simpa using hne
  simp [GoMap.set, h]

theorem parseCache.Get_snd (pc : parseCache) (q : String) : (pc.Get q).2 = pc.m.get q := by
  unfold parseCache.Get
  cases pc.m.get q <;> rfl

theorem parseCache.Get_fst_m (pc : parseCache) (q : String) : (pc.Get q).1.m = pc.m := by
  unfold parseCache.Get
  cases pc.m.get q <;> rfl

theorem parseCache.Get_requests (pc : parseCache) (q : String) :
    (pc.Get q).1.requests = (pc.requests + 1) % 2 ^ 64 := by
  unfold parseCache.Get
  cases pc.m.get q <;> rfl

theorem parseCache.Get_misses_of_miss (pc : parseCache) (q : String)
    (h : pc.m.get q = none) : (pc.Get q).1.misses = (pc.misses + 1) % 2 ^ 64 := by
  unfold parseCache.Get
  rw [h]

theorem parseCache.Get_misses_of_hit (pc : parseCache) (q : String) (v : parseCacheValue)
    (h : pc.m.get q = some v) : (pc.Get q).1.misses = pc.misses := by
  unfold parseCache.Get
  rw [h]

theorem parseCache.Put_get (pc : parseCache) (q : String) (pcv : Option parseCacheValue)
    (order : List Nat) : (pc.Put q pcv order).m.get q = pcv := by
  unfold parseCache.Put
  exact GoMap.get_set _ q pcv

theorem parsePromQLWithCache_hit (ext : Externals) (order : List Nat) (w : World)
    (q : String) (v : parseCacheValue) (h : w.parseCacheV.m.get q = some v) :
    parsePromQLWithCache ext order w q
      = ({ w with parseCacheV := (w.parseCacheV.Get q).1 }, v.outcome) := by
  have h2 : (w.parseCacheV.Get q).2 = some v := by rw [parseCache.Get_snd, h]
  unfold parsePromQLWithCache parseCacheValue.outcome
  rcases hpc : w.parseCacheV.Get q with ⟨pc, pcv⟩
  rw [hpc] at h2
  simp only at h2
  subst h2
  simp only
  cases v.err <;> rfl

theorem parsePromQLWithCache_miss (ext : Externals) (order : List Nat) (w : World)
    (q : String) (h : w.parseCacheV.m.get q = none) :
    parsePromQLWithCache ext order w q
      = ({ w with
            parseCacheV := (w.parseCacheV.Get q).1.Put q
              (some ⟨(ext.parsePromQL q).1, (ext.parsePromQL q).2⟩) order,
            parseCalls := w.parseCalls ++ [q] },
          parseCacheValue.outcome ⟨(ext.parsePromQL q).1, (ext.parsePromQL q).2⟩) := by
  have h2 : (w.parseCacheV.Get q).2 = none := by rw [parseCache.Get_snd, h]
  unfold parsePromQLWithCache parseCacheValue.outcome
  rcases hpc : w.parseCacheV.Get q with ⟨pc, pcv⟩
  rw [hpc] at h2
  simp only at h2
  subst h2
  simp only
  cases (ext.parsePromQL q).2 <;> rfl

theorem filter_ne_length (l : List (String × Option parseCacheValue)) (k : String)
    (hnd : (l.map Prod.fst).Nodup) (hk : k ∈ l.map Prod.fst) :
    (l.filter (fun kv => kv.1 != k)).length + 1 = l.length := by
  induction l with
  | nil => exact absurd hk (List.not_mem_nil k)
  | cons x xs ih =>
    rw [List.map_cons, List.nodup_cons] at hnd
    by_cases hx : x.1 = k
    · have hself : xs.filter (fun kv => kv.1 != k) = xs := by
        rw [List.filter_eq_self]
        intro kv hkv
        have hne : kv.1 ≠ k := fun heq =>
          hnd.1 (hx ▸ heq ▸ List.mem_map.2 ⟨kv, hkv, rfl⟩)
        simpa using hne
      rw [List.filter_cons_of_neg (by simp [hx]), hself, List.length_cons]
    · have hk' : k ∈ xs.map Prod.fst := by
        rw [List.map_cons] at hk
        rcases List.mem_cons.1 hk with h | h
        · exact absurd h.symm hx
        · exact h
      rw [List.filter_cons_of_pos (by simpa using hx), List.length_cons, List.length_cons,
        ih hnd.2 hk']

theorem filter_ne_self (l : List (String × Option parseCacheValue)) (k : String)
    (hk : k ∉ l.map Prod.fst) : l.filter (fun kv => kv.1 != k) = l := by
  rw [List.filter_eq_self]
  intro kv hkv
  have hne : kv.1 ≠ k := fun heq => hk (heq ▸ List.mem_map.2 ⟨kv, hkv, rfl⟩)
  simpa using hne

theorem GoMap.delete_len (m : GoMap) (k : String) (hk : k ∈ m.keys) :
    (m.delete k).len + 1 = m.len :=
  filter_ne_length m.entries k m.nodup hk

theorem GoMap.mem_delete_keys (m : GoMap) (k k' : String) :
    k' ∈ (m.delete k).keys ↔ k' ∈ m.keys ∧ k' ≠ k := by
  simp only [GoMap.keys, GoMap.delete, List.mem_map, List.mem_filter]
  constructor
  · rintro ⟨kv, ⟨hkv, hne⟩, rfl⟩
    exact ⟨⟨kv, hkv, rfl⟩, by simpa using hne⟩
  · rintro ⟨⟨kv, hkv, rfl⟩, hne⟩
    exact ⟨kv, ⟨hkv, by simpa using hne⟩, rfl⟩

theorem GoMap.set_len (m : GoMap) (q : String) (pcv : Option parseCacheValue) :
    (m.set q pcv).len = if q ∈ m.keys then m.len else m.len + 1 := by
  simp only [GoMap.len, GoMap.set, List.length_append, List.length_cons, List.length_nil]
  by_cases hq : q ∈ m.keys
  · rw [if_pos hq]
    exact filter_ne_length m.entries q m.nodup hq
  · rw [if_neg hq, filter_ne_self m.entries q hq]

theorem GoMap.get_set_ne (m : GoMap) (q k : String) (pcv : Option parseCacheValue)
    (hk : k ≠ q) : (m.set q pcv).get k = m.get k := by
  have h1 : ([(q, pcv)] : List (String × Option parseCacheValue)).find?
      (fun kv => kv.1 == k) = none := by
    simp [Ne.symm hk]
  have h2 : ∀ l : List (String × Option parseCacheValue),
      (l.filter (fun kv => kv.1 != q)).find? (fun kv => kv.1 == k)
        = l.find? (fun kv => kv.1 == k) := by
    intro l
    induction l with
    | nil => rfl
    | cons x xs ih =>
      by_cases hx : x.1 = q
      · have hxk : ¬ x.1 = k := fun h => hk (h ▸ hx)
        rw [List.filter_cons_of_neg (by simp [hx]), ih, List.find?_cons_of_neg _ (by simpa using hxk)]
      · rw [List.filter_cons_of_pos (by simpa using hx)]
        by_cases hxk : x.1 = k
        · rw [List.find?_cons_of_pos _ (by simpa using hxk),
            List.find?_cons_of_pos _ (by simpa using hxk)]
        · rw [List.find?_cons_of_neg _ (by simpa using hxk),
            List.find?_cons_of_neg _ (by simpa using hxk), ih]
  simp only [GoMap.get, GoMap.set, List.find?_append, h1, h2, Option.or_none]

theorem GoMap.mem_set_of_ne (m : GoMap) (q : String) (pcv : Option parseCacheValue)
    (kv : String × Option parseCacheValue) (hkv : kv ∈ m.entries) (hne : kv.1 ≠ q) :
    kv ∈ (m.set q pcv).entries := by
  simp only [GoMap.set, List.mem_append, List.mem_filter]
  exact Or.inl ⟨hkv, by simpa using hne⟩

theorem parseCache.evictLoop_sublist (ks : List String) (m : GoMap) (overflow : Int) :
    (parseCache.evictLoop m overflow ks).entries.Sublist m.entries := by
  induction ks generalizing m overflow with
  | nil => exact List.Sublist.refl _
  | cons k ks ih =>
    simp only [parseCache.evictLoop]
    have hd : (m.delete k).entries.Sublist m.entries := List.filter_sublist _
    split
    · exact hd
    · exact (ih _ _).trans hd

theorem parseCache.evictLoop_len (ks : List String) (m : GoMap) (c : Nat) (hc : 1 ≤ c)
    (hnd : ks.Nodup) (hks : ∀ k ∈ ks, k ∈ m.keys) :
    (parseCache.evictLoop m (c : Int) ks).len = m.len - min c ks.length := by
  induction ks generalizing m c with
  | nil => simp [parseCache.evictLoop]
  | cons k ks ih =>
    rw [List.nodup_cons] at hnd
    have hdel := GoMap.delete_len m k (hks k (List.mem_cons_self _ _))
    simp only [parseCache.evictLoop, List.length_cons]
    by_cases h1 : c = 1
    · subst h1
      rw [if_pos (by omega)]
      omega
    · rw [if_neg (by omega)]
      have hcast : ((c : Int) - 1) = ((c - 1 : Nat) : Int) := by omega
      rw [hcast, ih (m.delete k) (c - 1) (by omega) hnd.2]
      · omega
      · intro k' hk'
        rw [GoMap.mem_delete_keys]
        exact ⟨hks k' (List.mem_cons_of_mem _ hk'), fun heq => hnd.1 (heq ▸ hk')⟩

/-- A call of `Put` on a map of at most `parseCacheMaxLen` entries only stores the
value. -/
theorem parseCache.Put_of_le (pc : parseCache) (q : String) (pcv : Option parseCacheValue)
    (order : List Nat) (h : pc.m.len ≤ parseCacheMaxLen) :
    (pc.Put q pcv order).m = pc.m.set q pcv := by
  have hno : ¬ ((pc.m.len : Int) - (parseCacheMaxLen : Int) > 0) := by omega
  simp only [parseCache.Put, if_neg hno]

/-- A call of `Put` on a map of more than `parseCacheMaxLen` entries first deletes
`len / 10` of them and then stores the value. -/
theorem parseCache.Put_of_gt (pc : parseCache) (q : String) (pcv : Option parseCacheValue)
    (order : List Nat) (h : parseCacheMaxLen < pc.m.len) (hsize : pc.m.len < 2 ^ 52) :
    ∃ m' : GoMap, m'.entries.Sublist pc.m.entries
      ∧ m'.len = pc.m.len - pc.m.len / 10
      ∧ (pc.Put q pcv order).m = m'.set q pcv := by
  have hyes : (pc.m.len : Int) - (parseCacheMaxLen : Int) > 0 := by omega
  refine ⟨parseCache.evictLoop pc.m (tenPercent pc.m.len) (rangeOrder order pc.m.keys),
    parseCache.evictLoop_sublist _ _ _, ?_, ?_⟩
  · have hperm := rangeOrder_perm order pc.m.keys
    have hnd : (rangeOrder order pc.m.keys).Nodup := hperm.nodup_iff.2 pc.m.nodup
    have hlen : (rangeOrder order pc.m.keys).length = pc.m.len := by
      rw [rangeOrder_length]
      simp [GoMap.keys, GoMap.len]
    simp only [parseCacheMaxLen] at h
    rw [tenPercent_eq _ hsize, parseCache.evictLoop_len _ _ _ (by omega) hnd
      (fun k hk => hperm.subset hk), hlen]
    omega
  · simp only [parseCache.Put, if_pos hyes]

theorem parseCache.Put_len_le (pc : parseCache) (q : String) (pcv : Option parseCacheValue)
    (order : List Nat) (h : pc.m.len ≤ parseCacheMaxLen + 1) :
    (pc.Put q pcv order).m.len ≤ parseCacheMaxLen + 1 := by
  by_cases hle : pc.m.len ≤ parseCacheMaxLen
  · rw [parseCache.Put_of_le pc q pcv order hle, GoMap.set_len]
    split <;> omega
  · simp only [parseCacheMaxLen] at h hle
    obtain ⟨m', _, hlen, hput⟩ := parseCache.Put_of_gt pc q pcv order
      (by simp only [parseCacheMaxLen]; omega) (by omega)
    rw [hput, GoMap.set_len]
    simp only [parseCacheMaxLen]
    split <;> omega

theorem runCalls_len_le (calls : List CacheCall) (pc : parseCache)
    (h : pc.m.len ≤ parseCacheMaxLen + 1) :
    (runCalls pc calls).m.len ≤ parseCacheMaxLen + 1 := by
  induction calls generalizing pc with
  | nil => exact h
  | cons call calls ih =>
    simp only [runCalls, List.foldl_cons]
    apply ih
    cases call with
    | get q =>
      simp only [CacheCall.run, parseCache.Get_fst_m]
      exact h
    | put q pcv order =>
      exact parseCache.Put_len_le pc q pcv order h

theorem insertIdx_length_append {α : Type} (a b : List α) (x : α) :
    (a ++ b).insertIdx a.length x = a ++ x :: b := by
  induction a with
  | nil => rfl
  | cons y ys ih =>
    simp only [List.cons_append, List.length_cons, List.insertIdx_succ_cons, ih]

/-- Every order of visiting `xs` is `rangeOrder order xs` for some `order`. -/
theorem rangeOrder_surjective {α : Type} (xs l : List α) (h : l.Perm xs) :
    ∃ order, rangeOrder order xs = l := by
  induction xs generalizing l with
  | nil => exact ⟨[], (List.Perm.eq_nil h).symm⟩
  | cons x xs ih =>
    have hx : x ∈ l := h.symm.subset (List.mem_cons_self _ _)
    obtain ⟨a, b, rfl⟩ := List.append_of_mem hx
    have hab : (a ++ b).Perm xs := (List.perm_middle.symm.trans h).cons_inv
    obtain ⟨order, ho⟩ := ih (a ++ b) hab
    refine ⟨a.length :: order, ?_⟩
    have hlen : a.length < xs.length + 1 := by
      have := hab.length_eq
      rw [List.length_append] at this
      omega
    simp only [rangeOrder, List.tail_cons, List.headD_cons, ho, Nat.mod_eq_of_lt hlen]
    exact insertIdx_length_append a b x

theorem queryText_injective (i j : Nat) (h : queryText i = queryText j) : i = j := by
  unfold queryText at h
  have h2 := congrArg (fun s => s.data.length) h
  simpa using h2

theorem runCalls_distinctPuts (n : Nat) (hn : n ≤ parseCacheMaxLen + 1) :
    (runCalls parseCache.empty (distinctPuts n)).m.entries
      = (List.range n).map
          (fun i => (queryText i, some (⟨Expr.otherExpr i, none⟩ : parseCacheValue))) := by
  induction n with
  | zero => rfl
  | succ n ih =>
    have ih' := ih (by omega)
    have hlen : (runCalls parseCache.empty (distinctPuts n)).m.len = n := by
      simp [GoMap.len, ih']
    have hnew : queryText n ∉ (runCalls parseCache.empty (distinctPuts n)).m.keys := by
      simp only [GoMap.keys, ih', List.map_map, List.mem_map, List.mem_range,
        Function.comp_apply, not_exists, not_and]
      intro i hi heq
      have := queryText_injective _ _ heq
      omega
    have hnoev : ¬ ((n : Int) - (parseCacheMaxLen : Int) > 0) := by
      simp only [parseCacheMaxLen] at hn ⊢
      omega
    simp only [distinctPuts, List.range_succ, List.map_append, List.map_cons, List.map_nil,
      runCalls, List.foldl_append, List.foldl_cons, List.foldl_nil] at ih' hlen hnew ⊢
    simp only [CacheCall.run, parseCache.Put, hlen, if_neg hnoev]
    rw [GoMap.set_entries_of_new _ _ _ hnew, ih']

theorem runCalls_distinctPuts_len (n : Nat) (hn : n ≤ parseCacheMaxLen + 1) :
    (runCalls parseCache.empty (distinctPuts n)).m.len = n := by
  unfold GoMap.len
  rw [runCalls_distinctPuts n hn, List.length_map, List.length_range]

theorem bytesLess_iff_lex (a b : Bytes) :
    bytesLess a b = true ↔ List.Lex (fun x y : Nat => x < y) a b := by
  induction a generalizing b with
  | nil =>
    cases b with
    | nil => simp [bytesLess]
    | cons y ys => simp [bytesLess, List.Lex.nil]
  | cons x xs ih =>
    cases b with
    | nil => simp [bytesLess]
    | cons y ys =>
      simp only [bytesLess, Bool.or_eq_true, decide_eq_true_eq, Bool.and_eq_true,
        beq_iff_eq, ih]
      constructor
      · rintro (h | ⟨rfl, h⟩)
        · exact List.Lex.rel h
        · exact List.Lex.cons h
      · intro h
        cases h with
        | cons h => exact Or.inr ⟨rfl, h⟩
        | rel h => exact Or.inl h

theorem maySortResults_eq_false (e : Expr) (tss : List timeseries) :
    maySortResults e tss = false
      ↔ tss.length > 100 ∨ e = Expr.funcExpr "sort" ∨ e = Expr.funcExpr "sort_desc" := by
  unfold maySortResults
  by_cases hlen : tss.length > 100
  · simp [hlen]
  · cases e with
    | nilExpr => simp [hlen]
    | otherExpr id => simp [hlen]
    | funcExpr Name =>
      by_cases hn : Name = "sort" ∨ Name = "sort_desc"
      · simp [hlen, hn]
      · simp only [if_neg hlen, if_neg hn]
        simp only [Expr.funcExpr.injEq, hlen, false_or]
        simp [hn]

theorem bytesLess_asymm (a b : Bytes) (hab : bytesLess a b = true) :
    bytesLess b a = false := by
  cases hba : bytesLess b a with
  | false => rfl
  | true =>
    have h := bytesLess_trans a b a hab hba
    rw [bytesLess_irrefl] at h
    exact absurd h (by decide)

/-- On results with pairwise distinct marshaled names, every routine that returns
a permutation of its input in which no element is preceded by a greater one returns
the list `sortSlice` returns. -/
theorem sortSlice_unique (l l' : List Result)
    (hnd : (l.map Result.MetricNameMarshaled).Nodup) (hperm : l'.Perm l)
    (hsorted : l'.Pairwise (fun a b => resultLess b a = false)) :
    l' = sortSlice resultLess l := by
  have hnd' : (l'.map Result.MetricNameMarshaled).Nodup :=
    ((hperm.map _).nodup_iff).2 hnd
  have hstrict : ascending l' := by
    unfold ascending
    rw [List.Nodup, List.pairwise_map] at hnd'
    refine (hsorted.and hnd').imp ?_
    rintro a b ⟨h1, h2⟩
    exact bytesLess_total _ _ (fun heq => h2 heq.symm) h1
  have hanti : IsAntisymm Result
      (fun a b => bytesLess a.MetricNameMarshaled b.MetricNameMarshaled = true) :=
    ⟨fun a b h1 h2 => by
      rw [bytesLess_asymm _ _ h1] at h2
      exact absurd h2 (by decide)⟩
  exact List.eq_of_perm_of_sorted (hperm.trans (sortSlice_perm resultLess l).symm)
    hstrict (sortSlice_ascending l hnd)

theorem trimAll_eq_none_of_empty (rv : List timeseries)
    (h : ∃ ts ∈ rv, ts.Values.len = 0) : trimAll rv = none := by
  induction rv with
  | nil =>
    obtain ⟨ts, hts, _⟩ := h
    exact absurd hts (List.not_mem_nil ts)
  | cons t rv ih =>
    obtain ⟨ts, hts, hlen⟩ := h
    simp only [trimAll]
    rcases List.mem_cons.1 hts with rfl | hts
    · rw [trimLast_eq, if_neg (by omega)]
    · cases trimLast t with
      | none => rfl
      | some t' => simp [ih ⟨ts, hts, hlen⟩]

theorem trimAll_forall₂_trimLast (rv rv' : List timeseries) (h : trimAll rv = some rv') :
    List.Forall₂ (fun ts ts' => trimLast ts = some ts') rv rv' := by
  induction rv generalizing rv' with
  | nil =>
    simp only [trimAll, Option.some.injEq] at h
    subst h
    exact List.Forall₂.nil
  | cons ts rv ih =>
    simp only [trimAll] at h
    cases h1 : trimLast ts with
    | none => simp [h1] at h
    | some ts' =>
      cases h2 : trimAll rv with
      | none => simp [h1, h2] at h
      | some rest =>
        simp only [h1, h2, Option.map_some', Option.some.injEq] at h
        subst h
        exact List.Forall₂.cons h1 (ih rest h2)

theorem trimPasses_append (todo done : List timeseries) :
    trimPasses todo.length done.length (done ++ todo)
      = (trimAll todo).map (fun rv => done ++ rv) := by
  induction todo generalizing done with
  | nil => simp [trimPasses, trimAll]
  | cons ts rest ih =>
    have hget : (done ++ ts :: rest)[done.length]? = some ts := by
      rw [List.getElem?_append_right (Nat.le_refl _)]
      simp
    simp only [List.length_cons, trimPasses, trimAt, hget, trimAll]
    cases h1 : trimLast ts with
    | none => simp
    | some ts' =>
      have hset : (done ++ ts :: rest).set done.length ts' = (done ++ [ts']) ++ rest := by
        simp
      have hlen : done.length + 1 = (done ++ [ts']).length := by simp
      simp only [Option.map_some', Option.some_bind, hset]
      rw [hlen, ih (done ++ [ts'])]
      cases trimAll rest <;> simp

/-- The loop of `Exec` written as a recursion on the list of series is the sequence
of its passes over the series behind the pointers. -/
theorem trimAll_eq_trimPasses (rv : List timeseries) :
    trimAll rv = trimPasses rv.length 0 rv := by
  have h := trimPasses_append rv []
  simp only [List.length_nil, List.nil_append] at h
  rw [h]
  cases trimAll rv <;> simp

theorem trimAt_frame (rv rv₂ : List timeseries) (i : Nat) (h : trimAt rv i = some rv₂) :
    rv₂.length = rv.length ∧ ∀ j, j ≠ i → rv₂[j]? = rv[j]? := by
  unfold trimAt at h
  cases hget : rv[i]? with
  | none =>
    rw [hget] at h
    simp only [Option.some.injEq] at h
    subst h
    exact ⟨rfl, fun _ _ => rfl⟩
  | some ts =>
    rw [hget] at h
    cases h1 : trimLast ts with
    | none => simp [h1] at h
    | some ts' =>
      simp only [h1, Option.map_some', Option.some.injEq] at h
      subst h
      refine ⟨by simp, ?_⟩
      intro j hj
      exact List.getElem?_set_ne (Ne.symm hj)

/-! ## Theorems -/

/-- C3. `removeNaNs` returns exactly the series that have at least one value that
is not NaN, in their original relative order and unmodified: it is the filter of the
input list by that test.  Hence a series is in the output exactly when it is in the
input and has such a value, and a series all of whose values are NaN, an empty one
included, is absent. -/
theorem removeNaNs_keeps_exactly (tss : List timeseries) :
    removeNaNs tss = tss.filter (fun ts => ts.Values.elems.any (fun v => !isNaN v))
    ∧ (removeNaNs tss).Sublist tss
    ∧ (∀ ts, ts ∈ removeNaNs tss ↔ ts ∈ tss ∧ ∃ v ∈ ts.Values.elems, isNaN v = false)
    ∧ (∀ ts, ts ∈ tss ∧ (∀ v ∈ ts.Values.elems, isNaN v = true) → ts ∉ removeNaNs tss) := by
  have hf : removeNaNs tss = tss.filter hasValue := removeNaNs_eq_filter tss
  refine ⟨hf, ?_, ?_, ?_⟩
  · rw [hf]; exact List.filter_sublist tss
  · intro ts
    rw [hf, List.mem_filter]
    simp [hasValue]
  · rintro ts ⟨_, hall⟩ hmem
    rw [hf, List.mem_filter] at hmem
    obtain ⟨v, hv, hnan⟩ := List.any_eq_true.1 hmem.2
    rw [hall v hv] at hnan
    exact absurd hnan (by decide)

/-- C1, as stated, fails: the series at positions 0 and 1 have the same marshaled
name, the second one has only NaN values and is dropped before the duplicate check,
and the call succeeds with one result, for either value of `maySort`. -/
theorem timeseriesToResult_duplicate_dropped :
    plainExt.marshalMetricNameSorted seriesUp.MetricName
      = plainExt.marshalMetricNameSorted seriesUpNaN.MetricName
    ∧ timeseriesToResult plainExt [seriesUp, seriesUpNaN] false
      = (some [⟨[117, 112], nameUp, [f64One, f64Two], [10, 20]⟩], none)
    ∧ timeseriesToResult plainExt [seriesUp, seriesUpNaN] true
      = (some [⟨[117, 112], nameUp, [f64One, f64Two], [10, 20]⟩], none) := by
  refine ⟨rfl, ?_, ?_⟩ <;> decide

/-- C1, amended. If two series at distinct positions of the list handed to
`timeseriesToResult` have equal marshaled names and each has at least one value
that is not NaN, then for either value of `maySort` the call returns nil results
and the duplicate-output error naming one of the series of the list; and a call of
`Exec` whose trimmed evaluator output is that list returns nil results and such an
error. -/
theorem timeseriesToResult_duplicate_error (ext : Externals) (tss : List timeseries)
    (maySort : Bool) (i j : Fin tss.length) (hij : i ≠ j)
    (hkey : ext.marshalMetricNameSorted (tss.get i).MetricName
      = ext.marshalMetricNameSorted (tss.get j).MetricName)
    (hi : ∃ v ∈ (tss.get i).Values.elems, isNaN v = false)
    (hj : ∃ v ∈ (tss.get j).Values.elems, isNaN v = false) :
    (∃ ts ∈ tss, timeseriesToResult ext tss maySort
      = (none, some (GoError.duplicateOutput ts.MetricName)))
    ∧ (∀ (order : List Nat) (w : World) (ec : EvalConfig) (q : String) (e : Expr)
        (rv : List timeseries),
        ext.validate ec = true →
        (parsePromQLWithCache ext order w q).2 = (e, none) →
        ext.evalExpr ⟨ec.Start, wrapInt64 (ec.End + ec.Step), ec.Step⟩ e = (rv, none) →
        trimAll rv = some tss →
        ∃ ret, Exec ext order w ec q = some ret ∧ ret.result = none
          ∧ ∃ ts ∈ tss, ret.err = some (GoError.duplicateOutput ts.MetricName)) := by
  have hnd : ¬ distinctKeys ext tss := by
    unfold distinctKeys
    rw [removeNaNs_eq_filter, List.Nodup, List.pairwise_map]
    intro hp
    replace hp := pairwise_of_filter _ _ _ hp
    have hvi : hasValue (tss.get i) = true := by
      obtain ⟨v, hv, hn⟩ := hi
      exact List.any_eq_true.2 ⟨v, hv, by simp [hn]⟩
    have hvj : hasValue (tss.get j) = true := by
      obtain ⟨v, hv, hn⟩ := hj
      exact List.any_eq_true.2 ⟨v, hv, by simp [hn]⟩
    rcases lt_or_gt_of_ne hij with hlt | hgt
    · exact List.pairwise_iff_get.1 hp i j hlt hvi hvj hkey
    · exact List.pairwise_iff_get.1 hp j i hgt hvj hvi hkey.symm
  have main : ∀ b : Bool, ∃ ts ∈ tss, timeseriesToResult ext tss b
      = (none, some (GoError.duplicateOutput ts.MetricName)) := by
    intro b
    obtain ⟨ts, hts, hres⟩ := timeseriesToResult_err ext tss b hnd
    refine ⟨ts, ?_, hres⟩
    rw [removeNaNs_eq_filter] at hts
    exact (List.mem_filter.1 hts).1
  refine ⟨main maySort, ?_⟩
  intro order w ec q e rv hv hp he ht
  have hp' : parsePromQLWithCache ext order w q
      = ((parsePromQLWithCache ext order w q).1, e, none) := Prod.ext rfl hp
  obtain ⟨ts, hts, hres⟩ := main (maySortResults e tss)
  refine ⟨_, Exec_eval_ok ext order w _ ec q e rv tss hv hp' he ht, ?_, ts, hts, ?_⟩
  · simp only [hres]
  · simp only [hres]

/-- C1, amended, on the list `up`, `foo`, `up`: the first and the third series have
the same name and each has a value that is not NaN. -/
theorem timeseriesToResult_duplicate_error_witness :
    ∃ ts ∈ [seriesUp, seriesFoo, seriesUpAgain],
      timeseriesToResult plainExt [seriesUp, seriesFoo, seriesUpAgain] true
        = (none, some (GoError.duplicateOutput ts.MetricName)) :=
  (timeseriesToResult_duplicate_error plainExt [seriesUp, seriesFoo, seriesUpAgain] true
    ⟨0, by decide⟩ ⟨2, by decide⟩ (by decide) (by decide)
    ⟨f64One, by decide, by decide⟩ ⟨f64Two, by decide, by decide⟩).1

/-- C2. `timeseriesToResult` returns without error exactly when the marshaled names
of the series that survive the NaN filter are pairwise distinct; when it does, it
returns a result list whose `MetricNameMarshaled` fields are pairwise distinct, with
one entry per surviving series (a permutation of their copies); and the results of a
call of `Exec` that returns without error have pairwise distinct marshaled names, one
per survivor of the trimmed evaluator output. -/
theorem timeseriesToResult_unique_identities (ext : Externals) (tss : List timeseries)
    (maySort : Bool) :
    ((timeseriesToResult ext tss maySort).2 = none
      ↔ ((removeNaNs tss).map (fun ts => ext.marshalMetricNameSorted ts.MetricName)).Nodup)
    ∧ ((timeseriesToResult ext tss maySort).2 = none →
        ∃ result, timeseriesToResult ext tss maySort = (some result, none)
          ∧ (result.map Result.MetricNameMarshaled).Nodup
          ∧ result.length = (removeNaNs tss).length
          ∧ result.Perm ((removeNaNs tss).map
              (fun ts => copyResult (ext.marshalMetricNameSorted ts.MetricName) ts)))
    ∧ (∀ (order : List Nat) (w : World) (ec : EvalConfig) (q : String) (ret : ExecReturn),
        Exec ext order w ec q = some ret → ret.err = none →
        ∃ result rv', ret.result = some result
          ∧ trimAll (ext.evalExpr ec.extended (parsePromQLWithCache ext order w q).2.1).1
              = some rv'
          ∧ (result.map Result.MetricNameMarshaled).Nodup
          ∧ result.length = (removeNaNs rv').length) := by
  have key : ∀ (l : List timeseries) (b : Bool), (timeseriesToResult ext l b).2 = none →
      distinctKeys ext l ∧ ∃ result, timeseriesToResult ext l b = (some result, none)
        ∧ (result.map Result.MetricNameMarshaled).Nodup
        ∧ result.length = (removeNaNs l).length
        ∧ result.Perm ((removeNaNs l).map (resultOf ext)) := by
    intro l b hnone
    rcases timeseriesToResult_cases ext l b with ⟨hd, h⟩ | ⟨_, ts, _, h⟩
    · refine ⟨hd, _, h, ?_⟩
      have hperm : (if b = true then sortSlice resultLess ((removeNaNs l).map (resultOf ext))
          else (removeNaNs l).map (resultOf ext)).Perm ((removeNaNs l).map (resultOf ext)) := by
        cases b
        · exact List.Perm.refl _
        · exact sortSlice_perm _ _
      refine ⟨?_, ?_, hperm⟩
      · rw [(hperm.map _).nodup_iff, map_resultOf_key]
        exact hd
      · rw [hperm.length_eq, List.length_map]
    · rw [h] at hnone
      exact absurd hnone (by simp)
  refine ⟨⟨fun h => (key tss maySort h).1, ?_⟩, fun h => (key tss maySort h).2, ?_⟩
  · intro hd
    rw [timeseriesToResult_ok ext tss maySort hd]
  · intro order w ec q ret hret herr
    obtain ⟨rv', _, _, _, ht, _, hres⟩ := Exec_success ext order w ec q ret hret herr
    obtain ⟨_, result, hr, hnd, hlen, _⟩ := key rv' _ (by rw [hres])
    rw [hres] at hr
    exact ⟨result, rv', (Prod.mk.inj hr).1, ht, hnd, hlen⟩

/-- C4, as stated, fails: the evaluator returns one series with two values and a
view on three timestamps; `Exec` completes and the returned result has one value and
one timestamp, two timestamps fewer than the evaluator produced. -/
theorem Exec_timestamps_not_one_fewer :
    longTimestampsExt.evalExpr sampleConfig.extended (Expr.otherExpr 0)
      = ([⟨nameFoo, ⟨[f64One, f64Two], []⟩, ⟨[10, 20, 30], []⟩⟩], none)
    ∧ (Exec longTimestampsExt [] World.initial sampleConfig "foo").map
        (fun ret => (ret.ec, ret.result, ret.err))
      = some (sampleConfig, some [⟨[102, 111, 111], nameFoo, [f64One], [10]⟩], none) := by
  refine ⟨rfl, ?_⟩
  decide

/-- C4, amended. For a valid config whose `End` is an `int64`, a query whose parse
succeeds and an evaluation that returns series, each with at least one value and at
least `len(Values) - 1` timestamps: `Exec` returns; the evaluator is invoked once,
with `End` equal to `ec.End + ec.Step` in `int64` arithmetic (the exact sum when it
fits) and `Start`, `Step` unchanged; `ec` is afterwards equal to its original value,
whatever the post-processing returns; and every returned result is the copy of an
evaluator series with the last value dropped, so one value fewer, and with the first
`len(Values) - 1` timestamps of that series, which is one timestamp fewer when the
series has as many timestamps as values. -/
theorem Exec_window_round_trip (ext : Externals) (order : List Nat) (w : World)
    (ec : EvalConfig) (q : String) (e : Expr) (rv : List timeseries)
    (hv : ext.validate ec = true) (hend : isInt64 ec.End)
    (hp : (parsePromQLWithCache ext order w q).2 = (e, none))
    (he : ext.evalExpr ⟨ec.Start, wrapInt64 (ec.End + ec.Step), ec.Step⟩ e = (rv, none))
    (hrv : ∀ ts ∈ rv, 1 ≤ ts.Values.len ∧ ts.Values.len - 1 ≤ ts.Timestamps.len) :
    ∃ ret, Exec ext order w ec q = some ret
      ∧ ret.world.evalCalls
          = w.evalCalls ++ [(⟨ec.Start, wrapInt64 (ec.End + ec.Step), ec.Step⟩, e)]
      ∧ (isInt64 (ec.End + ec.Step) → wrapInt64 (ec.End + ec.Step) = ec.End + ec.Step)
      ∧ ret.ec = ec
      ∧ ∀ result, ret.result = some result → ∀ r ∈ result, ∃ ts ∈ rv,
          r.MetricNameMarshaled = ext.marshalMetricNameSorted ts.MetricName
          ∧ r.Values = ts.Values.elems.dropLast
          ∧ r.Values.length + 1 = ts.Values.len
          ∧ r.Timestamps = ts.Timestamps.elems.take (ts.Values.len - 1)
          ∧ r.Timestamps.length + 1 = ts.Values.len
          ∧ (ts.Timestamps.len = ts.Values.len →
              r.Timestamps = ts.Timestamps.elems.dropLast
              ∧ r.Timestamps.length + 1 = ts.Timestamps.len) := by
  have hp' : parsePromQLWithCache ext order w q
      = ((parsePromQLWithCache ext order w q).1, e, none) := Prod.ext rfl hp
  have hcap : ∀ ts ∈ rv, 1 ≤ ts.Values.len ∧ ts.Values.len - 1 ≤ ts.Timestamps.cap := by
    intro ts hts
    have := hrv ts hts
    simp only [Slice.cap, Slice.len] at *
    omega
  obtain ⟨rv', ht⟩ := trimAll_isSome rv hcap
  have hex := Exec_eval_ok ext order w _ ec q e rv rv' hv hp' he ht
  refine ⟨_, hex, ?_, wrapInt64_of_isInt64 _, ?_, ?_⟩
  · simp only [World.withEval, parsePromQLWithCache_evalCalls]
    rfl
  · simp only [EvalConfig.restored, wrapInt64_add_sub _ _ hend]
  · intro result hres r hr
    obtain ⟨ts', hts', _, rfl⟩ := timeseriesToResult_mem ext rv' _ result hres r hr
    obtain ⟨ts, hts, hname, hvals, htimes⟩ :=
      forall₂_exists_left _ _ _ (trimAll_some rv rv' ht).1 ts' hts'
    have h1 := hrv ts hts
    have hlen : ts.Values.elems.dropLast.length + 1 = ts.Values.len := by
      rw [List.length_dropLast]
      simp only [Slice.len] at *
      omega
    have htake : (ts.Timestamps.elems ++ ts.Timestamps.spare).take (ts.Values.len - 1)
        = ts.Timestamps.elems.take (ts.Values.len - 1) :=
      List.take_append_of_le_length h1.2
    have htlen : (ts.Timestamps.elems.take (ts.Values.len - 1)).length + 1
        = ts.Values.len := by
      rw [List.length_take]
      simp only [Slice.len] at *
      omega
    refine ⟨ts, hts, ?_, ?_, ?_, ?_, ?_, ?_⟩
    · simp [resultOf, copyResult, keyOf, hname]
    · simp [resultOf, copyResult, hvals]
    · simp only [resultOf, copyResult, hvals]
      exact hlen
    · simp only [resultOf, copyResult, htimes]
      exact htake
    · simp only [resultOf, copyResult, htimes, htake]
      exact htlen
    · intro heq
      simp only [resultOf, copyResult, htimes, htake]
      refine ⟨?_, ?_⟩
      · rw [List.dropLast_eq_take, ← heq]
        rfl
      · rw [heq]
        exact htlen

/-- C4, amended, on the window from 0 to 100 in steps of 10 and an evaluator that
returns the series `up` and `foo`, each with two values and two timestamps. -/
theorem Exec_window_round_trip_witness :
    ∃ ret, Exec twoSeriesExt [] World.initial sampleConfig "up" = some ret
      ∧ ret.world.evalCalls = [(⟨0, wrapInt64 (100 + 10), 10⟩, Expr.otherExpr 0)]
      ∧ (isInt64 (100 + 10) → wrapInt64 (100 + 10) = 100 + 10)
      ∧ ret.ec = sampleConfig
      ∧ ∀ result, ret.result = some result → ∀ r ∈ result, ∃ ts ∈ [seriesUp, seriesFoo],
          r.MetricNameMarshaled = twoSeriesExt.marshalMetricNameSorted ts.MetricName
          ∧ r.Values = ts.Values.elems.dropLast
          ∧ r.Values.length + 1 = ts.Values.len
          ∧ r.Timestamps = ts.Timestamps.elems.take (ts.Values.len - 1)
          ∧ r.Timestamps.length + 1 = ts.Values.len
          ∧ (ts.Timestamps.len = ts.Values.len →
              r.Timestamps = ts.Timestamps.elems.dropLast
              ∧ r.Timestamps.length + 1 = ts.Timestamps.len) :=
  Exec_window_round_trip twoSeriesExt [] World.initial sampleConfig "up"
    (Expr.otherExpr 0) [seriesUp, seriesFoo] (by decide) (by decide) (by decide) rfl
    (by decide)

/-- C5: the code at a failing input. The parse succeeds and the evaluator returns an
error; `Exec` returns that error and nil results, and leaves `ec.End` at 110, not at
its value 100 before the call. -/
theorem Exec_eval_error_keeps_extension :
    (Exec failingEvalExt [] World.initial sampleConfig "up").map
        (fun ret => (ret.ec, ret.result, ret.err))
      = some (⟨0, 110, 10⟩, none, some (GoError.external "storage error")) := by
  decide

/-- C6: the code at a failing input. After 10,001 calls of `Put` with distinct query
texts on the empty cache, the cache holds 10,001 entries, one more than
`parseCacheMaxLen`. -/
theorem parseCache_exceeds_parseCacheMaxLen :
    (runCalls parseCache.empty (distinctPuts 10001)).Len = 10001
    ∧ parseCacheMaxLen < (runCalls parseCache.empty (distinctPuts 10001)).Len := by
  have h : (runCalls parseCache.empty (distinctPuts 10001)).Len = 10001 := by
    unfold parseCache.Len GoMap.len
    rw [runCalls_distinctPuts 10001 (by decide), List.length_map, List.length_range]
  refine ⟨h, ?_⟩
  rw [h]
  decide

/-- C7. Two calls of `parsePromQLWithCache` on the same text in sequence, from any
state: the second call returns the same pair `(expr, error)` as the first; its lookup
finds an entry; it leaves the miss counter and the record of parser calls as the first
call left them; and over the two calls the parser is invoked at most once, on that
text. -/
theorem parsePromQLWithCache_twice (ext : Externals) (order₁ order₂ : List Nat)
    (w : World) (q : String) :
    (parsePromQLWithCache ext order₂ (parsePromQLWithCache ext order₁ w q).1 q).2
      = (parsePromQLWithCache ext order₁ w q).2
    ∧ (∃ pcv, ((parsePromQLWithCache ext order₁ w q).1.parseCacheV.Get q).2 = some pcv)
    ∧ (parsePromQLWithCache ext order₂ (parsePromQLWithCache ext order₁ w q).1 q).1.parseCacheV.Misses
      = (parsePromQLWithCache ext order₁ w q).1.parseCacheV.Misses
    ∧ (parsePromQLWithCache ext order₂ (parsePromQLWithCache ext order₁ w q).1 q).1.parseCalls
      = (parsePromQLWithCache ext order₁ w q).1.parseCalls
    ∧ ((parsePromQLWithCache ext order₂ (parsePromQLWithCache ext order₁ w q).1 q).1.parseCalls
        = w.parseCalls
      ∨ (parsePromQLWithCache ext order₂ (parsePromQLWithCache ext order₁ w q).1 q).1.parseCalls
        = w.parseCalls ++ [q]) := by
  have second : ∀ (w1 : World) (v : parseCacheValue), w1.parseCacheV.m.get q = some v →
      (parsePromQLWithCache ext order₂ w1 q).2 = v.outcome
      ∧ (∃ pcv, (w1.parseCacheV.Get q).2 = some pcv)
      ∧ (parsePromQLWithCache ext order₂ w1 q).1.parseCacheV.Misses = w1.parseCacheV.Misses
      ∧ (parsePromQLWithCache ext order₂ w1 q).1.parseCalls = w1.parseCalls := by
    intro w1 v hv
    rw [parsePromQLWithCache_hit ext order₂ w1 q v hv]
    refine ⟨rfl, ⟨v, by rw [parseCache.Get_snd, hv]⟩, ?_, rfl⟩
    exact parseCache.Get_misses_of_hit _ q v hv
  cases hget : w.parseCacheV.m.get q with
  | none =>
    have h1 := parsePromQLWithCache_miss ext order₁ w q hget
    have hv : (parsePromQLWithCache ext order₁ w q).1.parseCacheV.m.get q
        = some ⟨(ext.parsePromQL q).1, (ext.parsePromQL q).2⟩ := by
      rw [h1]
      exact parseCache.Put_get _ q _ order₁
    obtain ⟨ha, hb, hc, hd⟩ := second _ _ hv
    refine ⟨?_, hb, hc, hd, Or.inr ?_⟩
    · rw [ha, h1]
    · rw [hd, h1]
  | some v =>
    have h1 := parsePromQLWithCache_hit ext order₁ w q v hget
    have hv : (parsePromQLWithCache ext order₁ w q).1.parseCacheV.m.get q = some v := by
      rw [h1]
      simp only [parseCache.Get_fst_m]
      exact hget
    obtain ⟨ha, hb, hc, hd⟩ := second _ _ hv
    refine ⟨?_, hb, hc, hd, Or.inl ?_⟩
    · rw [ha, h1]
    · rw [hd, h1]

/-- C8. `maySortResults(e, tss)` is false exactly when `tss` has more than 100 series
or `e` is a function call named `sort` or `sort_desc`; so it is true for exactly 100
series when `e` is not such a call, and for every expression that is not a function
call with at most 100 series. -/
theorem maySortResults_false_iff (e : Expr) (tss : List timeseries) :
    (maySortResults e tss = false
      ↔ tss.length > 100 ∨ e = Expr.funcExpr "sort" ∨ e = Expr.funcExpr "sort_desc")
    ∧ (tss.length = 100 ∧ e ≠ Expr.funcExpr "sort" ∧ e ≠ Expr.funcExpr "sort_desc"
        → maySortResults e tss = true)
    ∧ (tss.length ≤ 100 ∧ (∀ Name, e ≠ Expr.funcExpr Name) → maySortResults e tss = true) := by
  have hiff := maySortResults_eq_false e tss
  refine ⟨hiff, ?_, ?_⟩
  · rintro ⟨hlen, h1, h2⟩
    rw [← Bool.not_eq_false, hiff]
    rintro (h | h | h)
    · omega
    · exact h1 h
    · exact h2 h
  · rintro ⟨hlen, hne⟩
    rw [← Bool.not_eq_false, hiff]
    rintro (h | h | h)
    · omega
    · exact hne _ h
    · exact hne _ h

/-- C9. When `timeseriesToResult` succeeds with `maySort = true`, the returned results
are in strictly ascending lexicographic byte order of `MetricNameMarshaled` (each key
is smaller than every later one, by Go's string comparison), and they are a
permutation of the results returned for the same input with `maySort = false`. -/
theorem timeseriesToResult_sorted (ext : Externals) (tss : List timeseries)
    (sorted : List Result) (h : timeseriesToResult ext tss true = (some sorted, none)) :
    sorted.Pairwise
        (fun a b => bytesLess a.MetricNameMarshaled b.MetricNameMarshaled = true)
    ∧ sorted.Pairwise
        (fun a b => List.Lex (fun x y : Nat => x < y)
          a.MetricNameMarshaled b.MetricNameMarshaled)
    ∧ ∃ unsorted, timeseriesToResult ext tss false = (some unsorted, none)
        ∧ sorted.Perm unsorted := by
  rcases timeseriesToResult_cases ext tss true with ⟨hd, h1⟩ | ⟨_, ts, _, h1⟩
  · rw [h1] at h
    simp only [if_true, Prod.mk.injEq, Option.some.injEq, and_true] at h
    subst h
    have hasc : ascending (sortSlice resultLess ((removeNaNs tss).map (resultOf ext))) := by
      apply sortSlice_ascending
      rw [map_resultOf_key]
      exact hd
    refine ⟨hasc, ?_, _, timeseriesToResult_ok ext tss false hd, ?_⟩
    · exact hasc.imp (fun hab => (bytesLess_iff_lex _ _).1 hab)
    · simpa using sortSlice_perm resultLess ((removeNaNs tss).map (resultOf ext))
  · rw [h1] at h
    exact absurd h (by simp)

/-- C9 on the series `up`, `foo`: the sorted result list is `foo`, `up`. -/
theorem timeseriesToResult_sorted_witness :
    [resultOf plainExt seriesFoo, resultOf plainExt seriesUp].Pairwise
        (fun a b => bytesLess a.MetricNameMarshaled b.MetricNameMarshaled = true)
    ∧ [resultOf plainExt seriesFoo, resultOf plainExt seriesUp].Pairwise
        (fun a b => List.Lex (fun x y : Nat => x < y)
          a.MetricNameMarshaled b.MetricNameMarshaled)
    ∧ ∃ unsorted, timeseriesToResult plainExt [seriesUp, seriesFoo] false
          = (some unsorted, none)
        ∧ [resultOf plainExt seriesFoo, resultOf plainExt seriesUp].Perm unsorted :=
  timeseriesToResult_sorted plainExt [seriesUp, seriesFoo]
    [resultOf plainExt seriesFoo, resultOf plainExt seriesUp] (by decide)

/-- C10. For a call of `Exec` that returns without error and in which the evaluator
returned more than 100 series, or the parsed expression is a call of `sort` or
`sort_desc`: the trimming loop turns the evaluator's series, position by position,
into series with the same name, the values without the last one and the timestamps
cut to that length; and the results are the copies of the trimmed series that have a
value that is not NaN, in the evaluator's order, each with the marshaled name, the
name, the values and the timestamps of its series. -/
theorem Exec_keeps_evaluator_order (ext : Externals) (order : List Nat) (w : World)
    (ec : EvalConfig) (q : String) (ret : ExecReturn) (e : Expr) (rv : List timeseries)
    (hret : Exec ext order w ec q = some ret) (herr : ret.err = none)
    (hp : (parsePromQLWithCache ext order w q).2 = (e, none))
    (he : ext.evalExpr ⟨ec.Start, wrapInt64 (ec.End + ec.Step), ec.Step⟩ e = (rv, none))
    (hns : rv.length > 100 ∨ e = Expr.funcExpr "sort" ∨ e = Expr.funcExpr "sort_desc") :
    ∃ rv', trimAll rv = some rv'
      ∧ List.Forall₂ trimmedFrom rv rv'
      ∧ ret.result = some
          ((rv'.filter (fun ts => ts.Values.elems.any (fun v => !isNaN v))).map
            (fun ts => ⟨ext.marshalMetricNameSorted ts.MetricName, ts.MetricName,
              ts.Values.elems, ts.Timestamps.elems⟩)) := by
  obtain ⟨rv', _, _, _, ht, _, hres⟩ := Exec_success ext order w ec q ret hret herr
  have he' : ext.evalExpr ec.extended e = (rv, none) := he
  rw [hp] at ht hres
  simp only [he'] at ht hres
  have hf := (trimAll_some rv rv' ht).1
  refine ⟨rv', ht, hf, ?_⟩
  have hms : maySortResults e rv' = false := by
    rw [maySortResults_eq_false, ← hf.length_eq]
    exact hns
  rw [hms] at hres
  rcases timeseriesToResult_cases ext rv' false with ⟨_, h1⟩ | ⟨_, ts, _, h1⟩
  · rw [h1] at hres
    have h2 := (Prod.mk.inj hres).1
    rw [← h2, removeNaNs_eq_filter]
    rfl
  · rw [h1] at hres
    exact absurd (Prod.mk.inj hres).2 (by simp)

/-- C10 on a query that parses to a call of `sort_desc` and an evaluator that returns
the series `up`, `foo`: the results keep this order. -/
theorem Exec_keeps_evaluator_order_witness :
    ∃ ret, Exec sortDescExt [] World.initial sampleConfig "sort_desc(up)" = some ret
      ∧ ret.err = none
      ∧ ∃ rv', trimAll [seriesUp, seriesFoo] = some rv'
        ∧ List.Forall₂ trimmedFrom [seriesUp, seriesFoo] rv'
        ∧ ret.result = some
            ((rv'.filter (fun ts => ts.Values.elems.any (fun v => !isNaN v))).map
              (fun ts => ⟨sortDescExt.marshalMetricNameSorted ts.MetricName, ts.MetricName,
                ts.Values.elems, ts.Timestamps.elems⟩)) := by
  have hs : (Exec sortDescExt [] World.initial sampleConfig "sort_desc(up)").isSome
      = true := by decide
  obtain ⟨ret, hret⟩ := Option.isSome_iff_exists.1 hs
  have herr : ret.err = none := by
    have h : (Exec sortDescExt [] World.initial sampleConfig "sort_desc(up)").map
        (fun r => r.err) = some none := by decide
    rw [hret] at h
    simpa using h
  exact ⟨ret, hret, herr,
    Exec_keeps_evaluator_order sortDescExt [] World.initial sampleConfig "sort_desc(up)"
      ret (Expr.funcExpr "sort_desc") [seriesUp, seriesFoo] hret herr (by decide) rfl
      (Or.inr (Or.inr rfl))⟩

/-- C11. When the resolution of the query text through the parse cache yields an
error, which is then the error of a fresh parse of a text without cache entry or the
error of the cached entry: `Exec`, once the config is validated, returns nil results
and exactly that error, records no call of the evaluator and leaves `ec` as it was;
and `ExpandWithExprs` returns the empty string and exactly that error. -/
theorem parse_failure_propagates (ext : Externals) (order : List Nat) (w : World)
    (ec : EvalConfig) (q : String) (err : GoError)
    (hv : ext.validate ec = true)
    (hp : (parsePromQLWithCache ext order w q).2.2 = some err) :
    (∃ ret, Exec ext order w ec q = some ret ∧ ret.result = none ∧ ret.err = some err
      ∧ ret.world.evalCalls = w.evalCalls ∧ ret.ec = ec ∧ ret.ec.End = ec.End)
    ∧ (ExpandWithExprs ext order w q).2 = ([], some err)
    ∧ ((w.parseCacheV.m.get q = none ∧ (ext.parsePromQL q).2 = some err)
      ∨ (∃ v, w.parseCacheV.m.get q = some v ∧ v.err = some err)) := by
  rcases hpar : parsePromQLWithCache ext order w q with ⟨w1, e, perr⟩
  rw [hpar] at hp
  simp only at hp
  subst hp
  refine ⟨⟨_, Exec_parse_err ext order w w1 ec q e err hv hpar, rfl, rfl, ?_, rfl, rfl⟩, ?_, ?_⟩
  · have h := parsePromQLWithCache_evalCalls ext order w q
    rw [hpar] at h
    exact h
  · simp [ExpandWithExprs, hpar]
  · cases hget : w.parseCacheV.m.get q with
    | none =>
      have h := parsePromQLWithCache_miss ext order w q hget
      rw [hpar] at h
      have h2 := congrArg (fun r => r.2.2) h
      simp only [parseCacheValue.outcome] at h2
      refine Or.inl ⟨rfl, ?_⟩
      cases hperr : (ext.parsePromQL q).2 with
      | none => rw [hperr] at h2; exact absurd h2 (by simp)
      | some x => rw [hperr] at h2; simpa using h2.symm
    | some v =>
      have h := parsePromQLWithCache_hit ext order w q v hget
      rw [hpar] at h
      have h2 := congrArg (fun r => r.2.2) h
      simp only [parseCacheValue.outcome] at h2
      refine Or.inr ⟨v, rfl, ?_⟩
      cases hverr : v.err with
      | none => rw [hverr] at h2; exact absurd h2 (by simp)
      | some x => rw [hverr] at h2; simpa using h2.symm

/-- C11 on a parser that fails on the text: `Exec` and `ExpandWithExprs` return the
parse error. -/
theorem parse_failure_propagates_witness :
    (∃ ret, Exec failingParseExt [] World.initial sampleConfig "up(" = some ret
      ∧ ret.result = none ∧ ret.err = some (GoError.external "parse error")
      ∧ ret.world.evalCalls = [] ∧ ret.ec = sampleConfig ∧ ret.ec.End = 100)
    ∧ (ExpandWithExprs failingParseExt [] World.initial "up(").2
      = ([], some (GoError.external "parse error")) :=
  ⟨(parse_failure_propagates failingParseExt [] World.initial sampleConfig "up("
      (GoError.external "parse error") (by decide) (by decide)).1,
   (parse_failure_propagates failingParseExt [] World.initial sampleConfig "up("
      (GoError.external "parse error") (by decide) (by decide)).2.1⟩

/-- C12. For every cache, of any size, every text `q`, every non-nil value `v` and
every order of ranging over the map, `Get(q)` right after `Put(q, v)` returns `v`:
the value is inserted after the eviction, and it is the only entry under `q`. -/
theorem Put_then_Get (pc : parseCache) (q : String) (v : parseCacheValue)
    (order : List Nat) :
    ((pc.Put q (some v) order).Get q).2 = some v
    ∧ (pc.Put q (some v) order).m.get q = some v
    ∧ (pc.Put q (some v) order).m.entries.filter (fun kv => kv.1 == q) = [(q, some v)] := by
  refine ⟨?_, parseCache.Put_get pc q (some v) order, ?_⟩
  · rw [parseCache.Get_snd]
    exact parseCache.Put_get pc q (some v) order
  · simp only [parseCache.Put, GoMap.set, List.filter_append, List.filter_filter]
    have h : ∀ l : List (String × Option parseCacheValue),
        l.filter (fun a => (a.1 == q && a.1 != q)) = [] := by
      intro l
      rw [List.filter_eq_nil_iff]
      intro a _
      by_cases ha : a.1 = q <;> simp [ha]
    rw [h]
    simp

/-- C13. For a cache whose two counters are below the largest `uint64`: `Get(q)`
adds exactly one to the request counter; it adds exactly one to the miss counter when
the lookup of `q` finds no value and leaves it unchanged when it finds one; it returns
what the lookup finds; it leaves the map unchanged; and `Put` changes neither counter.
Without the bound the two additions are modulo `2^64`. -/
theorem Get_counters (pc : parseCache) (q : String) (q' : String)
    (pcv : Option parseCacheValue) (order : List Nat)
    (hr : pc.Requests + 1 < 2 ^ 64) (hm : pc.Misses + 1 < 2 ^ 64) :
    (pc.Get q).1.Requests = pc.Requests + 1
    ∧ (pc.m.get q = none → (pc.Get q).1.Misses = pc.Misses + 1)
    ∧ (∀ v, pc.m.get q = some v → (pc.Get q).1.Misses = pc.Misses)
    ∧ (pc.Get q).2 = pc.m.get q
    ∧ (pc.Get q).1.m = pc.m
    ∧ (pc.Put q' pcv order).Requests = pc.Requests
    ∧ (pc.Put q' pcv order).Misses = pc.Misses := by
  simp only [parseCache.Requests, parseCache.Misses] at hr hm ⊢
  refine ⟨?_, ?_, ?_, parseCache.Get_snd pc q, parseCache.Get_fst_m pc q, rfl, rfl⟩
  · unfold parseCache.Get
    cases pc.m.get q <;> exact Nat.mod_eq_of_lt hr
  · intro h
    unfold parseCache.Get
    rw [h]
    exact Nat.mod_eq_of_lt hm
  · intro v h
    exact parseCache.Get_misses_of_hit pc q v h

/-- C13 on a cache with 41 requests and 7 misses that holds `up`: a lookup of `up`
makes it 42 requests and 7 misses. -/
theorem Get_counters_witness :
    (sampleCache.Get "up").1.Requests = 41 + 1
    ∧ (∀ v, sampleCache.m.get "up" = some v → (sampleCache.Get "up").1.Misses = 7) :=
  ⟨(Get_counters sampleCache "up" "foo" none [] (by decide) (by decide)).1,
   (Get_counters sampleCache "up" "foo" none [] (by decide) (by decide)).2.2.1⟩

/-- C14. For evaluator series that each have at least one value and at least
`len(Values) - 1` timestamps, the trimming loop of `Exec` succeeds, and position by
position: the values lose their last element; the timestamp view becomes the prefix
of the original view of length `len(Values) - 1`, the trimmed value count, also when
the original view was longer; and the elements of the timestamps' backing array are
as before. The loop is the sequence of its passes, and the pass for one series leaves
every other series, its values and its timestamp view, as it was. -/
theorem trim_shared_timestamps (rv : List timeseries)
    (h : ∀ ts ∈ rv, 1 ≤ ts.Values.len ∧ ts.Values.len - 1 ≤ ts.Timestamps.len) :
    (∃ rv', trimAll rv = some rv'
      ∧ List.Forall₂ (fun ts ts' =>
          ts'.Values.elems = ts.Values.elems.dropLast
          ∧ ts'.Values.len = ts.Values.len - 1
          ∧ ts'.Timestamps.elems = ts.Timestamps.elems.take (ts.Values.len - 1)
          ∧ ts'.Timestamps.elems <+: ts.Timestamps.elems
          ∧ ts'.Timestamps.len = ts'.Values.len
          ∧ ts'.Timestamps.elems ++ ts'.Timestamps.spare
              = ts.Timestamps.elems ++ ts.Timestamps.spare) rv rv')
    ∧ trimAll rv = trimPasses rv.length 0 rv
    ∧ (∀ (l l₂ : List timeseries) (i : Nat), trimAt l i = some l₂ →
        l₂.length = l.length ∧ ∀ j, j ≠ i → l₂[j]? = l[j]?) := by
  have hcap : ∀ ts ∈ rv, 1 ≤ ts.Values.len ∧ ts.Values.len - 1 ≤ ts.Timestamps.cap := by
    intro ts hts
    have := h ts hts
    simp only [Slice.cap, Slice.len] at *
    omega
  obtain ⟨rv', ht⟩ := trimAll_isSome rv hcap
  refine ⟨⟨rv', ht, ?_⟩, trimAll_eq_trimPasses rv, trimAt_frame⟩
  have hf := trimAll_forall₂_trimLast rv rv' ht
  have hmem : List.Forall₂ (fun ts ts' => ts ∈ rv ∧ trimLast ts = some ts') rv rv' := by
    rw [List.forall₂_iff_get] at hf ⊢
    refine ⟨hf.1, fun i h1 h2 => ⟨List.get_mem _ _ _, hf.2 i h1 h2⟩⟩
  refine hmem.imp ?_
  rintro ts ts' ⟨hts, htrim⟩
  have h1 := h ts hts
  rw [trimLast_eq, if_pos (hcap ts hts), Option.some.injEq] at htrim
  subst htrim
  have htake : (ts.Timestamps.elems ++ ts.Timestamps.spare).take (ts.Values.len - 1)
      = ts.Timestamps.elems.take (ts.Values.len - 1) :=
    List.take_append_of_le_length h1.2
  have hvlen : ts.Values.elems.dropLast.length = ts.Values.len - 1 := by
    rw [List.length_dropLast]; rfl
  refine ⟨rfl, hvlen, htake, ?_, ?_, ?_⟩
  · simp only [htake]
    exact List.take_prefix _ _
  · simp only [Slice.len, List.length_take, List.length_append, hvlen] at h1 ⊢
    omega
  · simp only [List.take_append_drop]

/-- C14 on two series with views on the same timestamps 10, 20, 30, one with three
values and one with two: the trimmed views are 10, 20 and 10. -/
theorem trim_shared_timestamps_witness :
    ∃ rv', trimAll [seriesSharedA, seriesSharedB] = some rv'
      ∧ List.Forall₂ (fun ts ts' =>
          ts'.Values.elems = ts.Values.elems.dropLast
          ∧ ts'.Values.len = ts.Values.len - 1
          ∧ ts'.Timestamps.elems = ts.Timestamps.elems.take (ts.Values.len - 1)
          ∧ ts'.Timestamps.elems <+: ts.Timestamps.elems
          ∧ ts'.Timestamps.len = ts'.Values.len
          ∧ ts'.Timestamps.elems ++ ts'.Timestamps.spare
              = ts.Timestamps.elems ++ ts.Timestamps.spare)
        [seriesSharedA, seriesSharedB] rv' :=
  (trim_shared_timestamps [seriesSharedA, seriesSharedB] (by decide)).1

/-- C19. For two input lists that are permutations of each other and whose surviving
series have pairwise distinct marshaled names, `timeseriesToResult` with
`maySort = true` returns the same pair for both, a result list without error; and
every list that is a permutation of the unsorted results of the second input in which
no result is preceded by a greater one, as any sorting routine returns, is that
result list. -/
theorem timeseriesToResult_order_independent (ext : Externals)
    (tss₁ tss₂ : List timeseries) (hperm : tss₁.Perm tss₂)
    (hd : ((removeNaNs tss₁).map
      (fun ts => ext.marshalMetricNameSorted ts.MetricName)).Nodup) :
    timeseriesToResult ext tss₁ true = timeseriesToResult ext tss₂ true
    ∧ ∃ result, timeseriesToResult ext tss₁ true = (some result, none)
      ∧ ∀ unsorted sorted : List Result,
          timeseriesToResult ext tss₂ false = (some unsorted, none) →
          sorted.Perm unsorted →
          sorted.Pairwise (fun a b =>
            bytesLess b.MetricNameMarshaled a.MetricNameMarshaled = false) →
          sorted = result := by
  have hd₁ : distinctKeys ext tss₁ := hd
  have hp : ((removeNaNs tss₁).map (resultOf ext)).Perm
      ((removeNaNs tss₂).map (resultOf ext)) := by
    rw [removeNaNs_eq_filter, removeNaNs_eq_filter]
    exact (hperm.filter _).map _
  have hd₂ : distinctKeys ext tss₂ := by
    unfold distinctKeys
    rw [← map_resultOf_key, ← (hp.map _).nodup_iff, map_resultOf_key]
    exact hd₁
  have hnd₁ : (((removeNaNs tss₁).map (resultOf ext)).map
      Result.MetricNameMarshaled).Nodup := by
    rw [map_resultOf_key]; exact hd₁
  have huniq : ∀ sorted : List Result,
      sorted.Perm ((removeNaNs tss₂).map (resultOf ext)) →
      sorted.Pairwise (fun a b =>
        bytesLess b.MetricNameMarshaled a.MetricNameMarshaled = false) →
      sorted = sortSlice resultLess ((removeNaNs tss₁).map (resultOf ext)) := by
    intro sorted hs hpw
    exact sortSlice_unique _ sorted hnd₁ (hs.trans hp.symm) hpw
  have h₁ := timeseriesToResult_ok ext tss₁ true hd₁
  have h₂ := timeseriesToResult_ok ext tss₂ true hd₂
  simp only [if_true] at h₁ h₂
  have hnd₂ : (((removeNaNs tss₂).map (resultOf ext)).map
      Result.MetricNameMarshaled).Nodup := by
    rw [map_resultOf_key]; exact hd₂
  have heq : sortSlice resultLess ((removeNaNs tss₂).map (resultOf ext))
      = sortSlice resultLess ((removeNaNs tss₁).map (resultOf ext)) := by
    apply huniq _ (sortSlice_perm _ _)
    exact (sortSlice_ascending _ hnd₂).imp (fun hab => bytesLess_asymm _ _ hab)
  refine ⟨by rw [h₁, h₂, heq], _, h₁, ?_⟩
  intro unsorted sorted hu hs hpw
  rw [timeseriesToResult_ok ext tss₂ false hd₂] at hu
  simp only [Bool.false_eq_true, if_false, Prod.mk.injEq, Option.some.injEq, and_true] at hu
  subst hu
  exact huniq sorted hs hpw

/-- C19 on the series `up`, `foo` in both orders. -/
theorem timeseriesToResult_order_independent_witness :
    timeseriesToResult plainExt [seriesUp, seriesFoo] true
      = timeseriesToResult plainExt [seriesFoo, seriesUp] true :=
  (timeseriesToResult_order_independent plainExt [seriesUp, seriesFoo]
    [seriesFoo, seriesUp] (List.Perm.swap _ _ _) (by decide)).1

/-- C20. After a validated config, a successful parse and an evaluation that returns
series: if every series has at least one value and at least `len(Values) - 1`
timestamps, both slice expressions of the trimming loop are in range for every series
and `Exec` returns, with what `timeseriesToResult` returns for the trimmed series;
if some series has no values, the bound of `Values[:len(Values)-1]` is -1, the slice
expression panics, and `Exec` panics instead of returning. -/
theorem Exec_trim_in_range (ext : Externals) (order : List Nat) (w : World)
    (ec : EvalConfig) (q : String) (e : Expr) (rv : List timeseries)
    (hv : ext.validate ec = true)
    (hp : (parsePromQLWithCache ext order w q).2 = (e, none))
    (he : ext.evalExpr ⟨ec.Start, wrapInt64 (ec.End + ec.Step), ec.Step⟩ e = (rv, none)) :
    ((∀ ts ∈ rv, 1 ≤ ts.Values.len ∧ ts.Values.len - 1 ≤ ts.Timestamps.len) →
      (∀ ts ∈ rv, ∃ values timestamps,
          ts.Values.upTo ((ts.Values.len : Int) - 1) = some values
          ∧ ts.Timestamps.upTo (values.len : Int) = some timestamps)
      ∧ ∃ rv' ret, trimAll rv = some rv' ∧ Exec ext order w ec q = some ret
          ∧ (ret.result, ret.err) = timeseriesToResult ext rv' (maySortResults e rv'))
    ∧ ((∃ ts ∈ rv, ts.Values.len = 0) →
      (∀ ts ∈ rv, ts.Values.len = 0 →
          (ts.Values.len : Int) - 1 = -1
          ∧ ts.Values.upTo ((ts.Values.len : Int) - 1) = none
          ∧ trimLast ts = none)
      ∧ Exec ext order w ec q = none) := by
  have hp' : parsePromQLWithCache ext order w q
      = ((parsePromQLWithCache ext order w q).1, e, none) := Prod.ext rfl hp
  refine ⟨?_, ?_⟩
  · intro h
    have hcap : ∀ ts ∈ rv, 1 ≤ ts.Values.len ∧ ts.Values.len - 1 ≤ ts.Timestamps.cap := by
      intro ts hts
      have := h ts hts
      simp only [Slice.cap, Slice.len] at *
      omega
    refine ⟨?_, ?_⟩
    · intro ts hts
      have h1 := hcap ts hts
      have hcast : ((ts.Values.len : Int) - 1) = ((ts.Values.len - 1 : Nat) : Int) := by
        omega
      have hvcap : ts.Values.len - 1 ≤ ts.Values.cap := by
        simp only [Slice.cap, Slice.len]; omega
      refine ⟨⟨(ts.Values.elems ++ ts.Values.spare).take (ts.Values.len - 1),
          (ts.Values.elems ++ ts.Values.spare).drop (ts.Values.len - 1)⟩,
        ⟨(ts.Timestamps.elems ++ ts.Timestamps.spare).take (ts.Values.len - 1),
          (ts.Timestamps.elems ++ ts.Timestamps.spare).drop (ts.Values.len - 1)⟩,
        by rw [hcast, Slice.upTo_nat, if_pos hvcap], ?_⟩
      have hl : Slice.len (⟨(ts.Values.elems ++ ts.Values.spare).take (ts.Values.len - 1),
          (ts.Values.elems ++ ts.Values.spare).drop (ts.Values.len - 1)⟩ : Slice Float64)
          = ts.Values.len - 1 := by
        simp only [Slice.len, List.length_take, List.length_append]
        omega
      rw [hl, Slice.upTo_nat, if_pos h1.2]
    · obtain ⟨rv', ht⟩ := trimAll_isSome rv hcap
      exact ⟨rv', _, ht, Exec_eval_ok ext order w _ ec q e rv rv' hv hp' he ht, rfl⟩
  · intro h
    refine ⟨?_, Exec_trim_panic ext order w _ ec q e rv hv hp' he
      (trimAll_eq_none_of_empty rv h)⟩
    intro ts _ hlen
    refine ⟨by omega, ?_, ?_⟩
    · exact Slice.upTo_neg _ _ (by omega)
    · rw [trimLast_eq, if_neg (by omega)]

/-- C20 on an evaluator that returns the series `up` and a series without values:
`Exec` panics. -/
theorem Exec_trim_in_range_witness :
    Exec emptySeriesExt [] World.initial sampleConfig "up" = none :=
  ((Exec_trim_in_range emptySeriesExt [] World.initial sampleConfig "up"
    (Expr.otherExpr 0) [seriesUp, seriesEmpty] (by decide) (by decide) rfl).2
    ⟨seriesEmpty, by decide, by decide⟩).2

/-- C15. For a cache whose map holds `n` entries, `n` below `2^52`. When `n` is at
most 10,000, `Put(q, v)` only stores the value: every other key keeps its entry and
the size grows by at most one. When `n` is above 10,000, the count computed by
`int(float64(n) * 0.1)` is `n / 10`, the whole part of a tenth of `n`; `Put` deletes
exactly that many of the entries present, whichever order the map is ranged over in,
and then stores the value, so the size is `n - n / 10` or `n - n / 10 + 1` after the
call. -/
theorem Put_eviction_rule (pc : parseCache) (q : String) (pcv : Option parseCacheValue)
    (order : List Nat) (hsize : pc.m.len < 2 ^ 52) :
    (pc.m.len ≤ 10000 →
      (pc.Put q pcv order).m = pc.m.set q pcv
      ∧ (∀ k, k ≠ q → (pc.Put q pcv order).m.get k = pc.m.get k)
      ∧ (∀ kv ∈ pc.m.entries, kv.1 ≠ q → kv ∈ (pc.Put q pcv order).m.entries)
      ∧ pc.m.len ≤ (pc.Put q pcv order).Len
      ∧ (pc.Put q pcv order).Len ≤ pc.m.len + 1)
    ∧ (pc.m.len > 10000 →
      tenPercent pc.m.len = ((pc.m.len / 10 : Nat) : Int)
      ∧ ∃ m' : GoMap, m'.entries.Sublist pc.m.entries
        ∧ m'.len = pc.m.len - pc.m.len / 10
        ∧ (pc.Put q pcv order).m = m'.set q pcv
        ∧ ((pc.Put q pcv order).Len = pc.m.len - pc.m.len / 10
          ∨ (pc.Put q pcv order).Len = pc.m.len - pc.m.len / 10 + 1)) := by
  refine ⟨?_, ?_⟩
  · intro hle
    have hput := parseCache.Put_of_le pc q pcv order (by simp only [parseCacheMaxLen]; omega)
    have hlen := GoMap.set_len pc.m q pcv
    refine ⟨hput, ?_, ?_, ?_, ?_⟩
    · intro k hk
      rw [hput]
      exact GoMap.get_set_ne pc.m q k pcv hk
    · intro kv hkv hne
      rw [hput]
      exact GoMap.mem_set_of_ne pc.m q pcv kv hkv hne
    · rw [parseCache.Len, hput, hlen]
      split <;> omega
    · rw [parseCache.Len, hput, hlen]
      split <;> omega
  · intro hgt
    obtain ⟨m', hsub, hlen, hput⟩ := parseCache.Put_of_gt pc q pcv order
      (by simp only [parseCacheMaxLen]; omega) hsize
    refine ⟨tenPercent_eq _ hsize, m', hsub, hlen, hput, ?_⟩
    rw [parseCache.Len, hput, GoMap.set_len, hlen]
    split
    · exact Or.inl rfl
    · exact Or.inr rfl

/-- C15 on the cache that holds the 10,001 texts of `distinctPuts 10001`: a further
`Put` leaves 9,001 or 9,002 entries. -/
theorem Put_eviction_rule_witness :
    (runCalls parseCache.empty (distinctPuts 10001)).m.len < 2 ^ 52
    ∧ tenPercent (runCalls parseCache.empty (distinctPuts 10001)).m.len
        = (((runCalls parseCache.empty (distinctPuts 10001)).m.len / 10 : Nat) : Int)
    ∧ ∃ m' : GoMap,
        m'.entries.Sublist (runCalls parseCache.empty (distinctPuts 10001)).m.entries
        ∧ m'.len = (runCalls parseCache.empty (distinctPuts 10001)).m.len
            - (runCalls parseCache.empty (distinctPuts 10001)).m.len / 10
        ∧ ((runCalls parseCache.empty (distinctPuts 10001)).Put "up" none []).m
            = m'.set "up" none
        ∧ (((runCalls parseCache.empty (distinctPuts 10001)).Put "up" none []).Len
            = (runCalls parseCache.empty (distinctPuts 10001)).m.len
              - (runCalls parseCache.empty (distinctPuts 10001)).m.len / 10
          ∨ ((runCalls parseCache.empty (distinctPuts 10001)).Put "up" none []).Len
            = (runCalls parseCache.empty (distinctPuts 10001)).m.len
              - (runCalls parseCache.empty (distinctPuts 10001)).m.len / 10 + 1) :=
  ⟨by rw [runCalls_distinctPuts_len 10001 (by decide)]; decide,
   (Put_eviction_rule (runCalls parseCache.empty (distinctPuts 10001)) "up" none []
      (by rw [runCalls_distinctPuts_len 10001 (by decide)]; decide)).2
      (by rw [runCalls_distinctPuts_len 10001 (by decide)]; decide)⟩

/-- C16. `ReadAt(p, offset)` on a buffer with content `B` panics exactly when the
offset is negative, or greater than `len(B)`, or `offset + len(p)` exceeds `len(B)`;
otherwise it leaves in `p` the bytes `B[offset : offset+len(p)]` and leaves `B`
unchanged. On the buffer `foobar baz` the reads at offsets -1 and 11 and the read of
10 bytes at offset 7 panic, and the reads of the first byte, of the last byte and of 3
bytes at offset 2 return those bytes. -/
theorem ReadAt_bounds (B p : Bytes) (offset : Int) :
    (ByteBuffer.ReadAt B p offset = none
      ↔ offset < 0 ∨ offset > (B.length : Int)
        ∨ offset + (p.length : Int) > (B.length : Int))
    ∧ (¬ (offset < 0 ∨ offset > (B.length : Int)
          ∨ offset + (p.length : Int) > (B.length : Int)) →
        ByteBuffer.ReadAt B p offset
          = some ((B.drop offset.toNat).take p.length, B))
    ∧ ByteBuffer.ReadAt testStr [0] (-1) = none
    ∧ ByteBuffer.ReadAt testStr [0] 11 = none
    ∧ ByteBuffer.ReadAt testStr [0, 0, 0, 0, 0, 0, 0, 0, 0, 0] 7 = none
    ∧ ByteBuffer.ReadAt testStr [0] 0 = some ([102], testStr)
    ∧ ByteBuffer.ReadAt testStr [0] 9 = some ([122], testStr)
    ∧ ByteBuffer.ReadAt testStr [0, 0, 0] 2 = some ([111, 98, 97], testStr) := by
  have hok : ¬ (offset < 0 ∨ offset > (B.length : Int)
        ∨ offset + (p.length : Int) > (B.length : Int)) →
      ByteBuffer.ReadAt B p offset = some ((B.drop offset.toNat).take p.length, B) := by
    intro h
    have h1 : ¬ offset < 0 := fun hh => h (Or.inl hh)
    have h2 : ¬ offset > (B.length : Int) := fun hh => h (Or.inr (Or.inl hh))
    have h3 : ¬ offset + (p.length : Int) > (B.length : Int) :=
      fun hh => h (Or.inr (Or.inr hh))
    have hmin : min p.length (B.drop offset.toNat).length = p.length := by
      rw [List.length_drop]
      omega
    simp only [ByteBuffer.ReadAt, if_neg h1, if_neg h2, hmin, Nat.lt_irrefl, if_false,
      List.drop_length, List.append_nil]
  refine ⟨⟨?_, ?_⟩, hok, by decide, by decide, by decide, by decide, by decide, by decide⟩
  · intro hnone
    by_contra hcon
    rw [hok hcon] at hnone
    exact absurd hnone (by simp)
  · rintro (h | h | h)
    · simp [ByteBuffer.ReadAt, h]
    · by_cases h1 : offset < 0
      · simp [ByteBuffer.ReadAt, h1]
      · simp [ByteBuffer.ReadAt, h1, h]
    · by_cases h1 : offset < 0
      · simp [ByteBuffer.ReadAt, h1]
      · by_cases h2 : offset > (B.length : Int)
        · simp [ByteBuffer.ReadAt, h1, h2]
        · have hlt : min p.length (B.drop offset.toNat).length < p.length := by
            rw [List.length_drop]
            omega
          simp only [ByteBuffer.ReadAt, if_neg h1, if_neg h2, if_pos hlt]

/-- C18. For every sequence of `Get` and `Put` calls from the empty cache, the cache
holds at most `parseCacheMaxLen + 1 = 10,001` entries after each call. So when the
test of `Put` that starts the eviction holds, the cache has exactly 10,001 entries,
the count to delete is 1,000, and exactly 1,000 of the entries present are deleted
before the value is stored. -/
theorem parseCache_reachable_size (calls : List CacheCall) :
    (∀ k, (runCalls parseCache.empty (calls.take k)).Len ≤ parseCacheMaxLen + 1)
    ∧ (runCalls parseCache.empty calls).Len ≤ 10001
    ∧ (((runCalls parseCache.empty calls).m.len : Int) - (parseCacheMaxLen : Int) > 0 →
        (runCalls parseCache.empty calls).m.len = 10001
        ∧ tenPercent (runCalls parseCache.empty calls).m.len = 1000
        ∧ ∀ (q : String) (pcv : Option parseCacheValue) (order : List Nat),
          ∃ m' : GoMap, m'.entries.Sublist (runCalls parseCache.empty calls).m.entries
            ∧ m'.len + 1000 = (runCalls parseCache.empty calls).m.len
            ∧ ((runCalls parseCache.empty calls).Put q pcv order).m = m'.set q pcv) := by
  have hinv : ∀ l : List CacheCall,
      (runCalls parseCache.empty l).m.len ≤ parseCacheMaxLen + 1 := by
    intro l
    apply runCalls_len_le
    simp [parseCache.empty, GoMap.empty, GoMap.len]
  refine ⟨fun k => hinv _, hinv calls, ?_⟩
  intro htest
  have hle := hinv calls
  simp only [parseCacheMaxLen] at hle htest
  have hlen : (runCalls parseCache.empty calls).m.len = 10001 := by omega
  refine ⟨hlen, ?_, ?_⟩
  · rw [tenPercent_eq _ (by omega), hlen]
    rfl
  · intro q pcv order
    obtain ⟨m', hsub, hm', hput⟩ := parseCache.Put_of_gt (runCalls parseCache.empty calls)
      q pcv order (by simp only [parseCacheMaxLen]; omega) (by omega)
    refine ⟨m', hsub, ?_, hput⟩
    rw [hm', hlen]

end Promql
